import Mathlib

/-!
Verification of the core numerical and parsing components of the GraphForge
repository against its natural-language specification.

Machine reals are modelled as rationals.  JavaScript values that may become
NaN or ±Infinity are modelled by an explicit extended type `JSNum`.  Sources
of nondeterminism (Math.random draws) are passed as explicit parameters.
-/

namespace GraphForge

/-- A JavaScript number as stored in mutable particle state: either a finite
value (modelled by a rational) or one of the non-finite values NaN, Infinity,
-Infinity.  `isFinite` agrees with JavaScript's global `isFinite` on these. -/
inductive JSNum where
  | num (q : ℚ)
  | nan
  | inf
  | ninf
deriving DecidableEq, Repr

def JSNum.isFinite : JSNum → Bool
  | .num _ => true
  | _ => false

/-- One axis range (interface `Range` of `types.ts`). -/
structure RangeQ where
  min : ℚ
  max : ℚ
deriving DecidableEq, Repr

/-! ## Particle Integrator (source file part_003)

The physics hook `useParticlePhysics` runs, per particle and per frame:
gradient computation (cached central differences), `integrateSymplecticEuler`,
`applyBoundaryConditions`, and the safety check `respawnIfInvalid`. -/

/-- Spatial boundaries of `PhysicsConfig` (part_003 lines 16-19). -/
structure BoundariesQ where
  x : RangeQ
  y : RangeQ
deriving DecidableEq, Repr

/-- `PhysicsConfig` (part_003 lines 12-21). -/
structure PhysicsConfig where
  gamma : ℚ
  alpha : ℚ
  dt : ℚ
  boundaries : BoundariesQ
  restitution : ℚ
deriving DecidableEq, Repr

/-- A particle with finite numeric state, as manipulated by the integration
and boundary steps (part_003 lines 23-30).  The trail stores recent 3D
positions. -/
structure ParticleQ where
  id : ℕ
  x : ℚ
  y : ℚ
  vx : ℚ
  vy : ℚ
  trail : List (ℚ × ℚ × ℚ)
deriving DecidableEq, Repr

/-- A particle whose components may have become non-finite, as examined by
the safety check `respawnIfInvalid` (part_003 lines 129-144). -/
structure ParticleJS where
  id : ℕ
  x : JSNum
  y : JSNum
  vx : JSNum
  vy : JSNum
  trail : List (ℚ × ℚ × ℚ)
deriving DecidableEq, Repr

structure Grad where
  dx : ℚ
  dy : ℚ
deriving DecidableEq, Repr

/-- Key of the gradient cache: the source keys the cache by
`x.toFixed(2) + "," + y.toFixed(2)`.  We model the two-decimal rounding by
rounding `100·q` to the nearest integer (the exact tie behaviour of
`toFixed` depends on the binary float representation; no theorem below
depends on a tie). -/
def toFixed2 (q : ℚ) : ℤ := round (q * 100)

def gradKey (x y : ℚ) : ℤ × ℤ := (toFixed2 x, toFixed2 y)

/-- The cache of `createGradientComputer` (part_003 lines 44-66): a JS `Map`
from rounded-coordinate keys to gradients, kept in insertion order. -/
abbrev GradCache := List ((ℤ × ℤ) × Grad)

def cacheGet (c : GradCache) (k : ℤ × ℤ) : Option Grad :=
  (c.find? (fun e => e.1 == k)).map (fun e => e.2)

/-- One query of the cached gradient computer (part_003 lines 50-65): on a
cache hit return the cached gradient, otherwise compute the symmetric central
difference of `phi` with step `h = 0.01`, clear the cache if it is full, and
store the result.  Returns the gradient and the updated cache. -/
def computeGradient (phi : ℚ → ℚ → ℚ) (cacheSize : ℕ) (cache : GradCache)
    (x y : ℚ) : Grad × GradCache :=
  let key := gradKey x y
  match cacheGet cache key with
  | some cached => (cached, cache)
  | none =>
    let h : ℚ := 1 / 100
    let dx := (phi (x + h) y - phi (x - h) y) / (2 * h)
    let dy := (phi x (y + h) - phi x (y - h)) / (2 * h)
    let result : Grad := { dx := dx, dy := dy }
    let cache1 := if cacheSize ≤ cache.length then [] else cache
    (result, cache1 ++ [(key, result)])

/-- Symplectic Euler integration step (part_003 lines 77-93): acceleration
from damping and gradient force; velocity updated first, then position
updated with the already-updated velocity. -/
def integrateSymplecticEuler (p : ParticleQ) (grad : Grad)
    (config : PhysicsConfig) : ParticleQ :=
  let ax := -config.gamma * p.vx - config.alpha * grad.dx
  let ay := -config.gamma * p.vy - config.alpha * grad.dy
  let vx1 := p.vx + ax * config.dt
  let vy1 := p.vy + ay * config.dt
  { p with vx := vx1, vy := vy1,
           x := p.x + vx1 * config.dt, y := p.y + vy1 * config.dt }

/-- Boundary collision with attenuated bounce (part_003 lines 98-119). -/
def applyBoundaryConditions (p : ParticleQ) (config : PhysicsConfig) :
    ParticleQ :=
  let b := config.boundaries
  let r := config.restitution
  let p1 :=
    if p.x < b.x.min then { p with x := b.x.min, vx := p.vx * (-r) }
    else if b.x.max < p.x then { p with x := b.x.max, vx := p.vx * (-r) }
    else p
  if p1.y < b.y.min then { p1 with y := b.y.min, vy := p1.vy * (-r) }
  else if b.y.max < p1.y then { p1 with y := b.y.max, vy := p1.vy * (-r) }
  else p1

/-- A spawn anchor (the `EXCEPTIONAL_POINTS` entries / `spawnPoints`). -/
structure SpawnPoint where
  x : ℚ
  y : ℚ
  r : ℚ
deriving DecidableEq, Repr

/-- Safety respawn (part_003 lines 129-144).  The random draws of the source
(`radius = 1 + 1.5·Math.random()` and the cosine / sine of the random angle)
are passed as the parameters `radius`, `cosA`, `sinA`.  JavaScript indexing
of an empty `spawnPoints` array would throw, modelled by `none`. -/
def respawnIfInvalid (p : ParticleJS) (spawnPoints : List SpawnPoint)
    (radius cosA sinA : ℚ) : Option ParticleJS :=
  if p.x.isFinite && p.y.isFinite && p.vx.isFinite && p.vy.isFinite then
    some p
  else if spawnPoints.isEmpty then none
  else
    let ep := spawnPoints.getD (p.id % spawnPoints.length) ⟨0, 0, 0⟩
    some { p with
      x := .num (ep.x + radius * cosA),
      y := .num (ep.y + radius * sinA),
      vx := .num (-(1/2) * sinA),
      vy := .num ((1/2) * cosA),
      trail := [] }

/-- `n` update steps of the per-frame physics callback, where the integration
and boundary phases are an arbitrary transformation `f` of the particle state
(this covers any possible NaN / Infinity propagation through the arithmetic),
each step ending with the safety check `respawnIfInvalid`. -/
def iterateChecked (f : ℕ → ParticleJS → ParticleJS)
    (spawnPoints : List SpawnPoint) (draws : ℕ → ℚ × ℚ × ℚ) :
    ℕ → ParticleJS → Option ParticleJS
  | 0, p => some p
  | n + 1, p => do
    let p1 ← iterateChecked f spawnPoints draws n p
    respawnIfInvalid (f n p1) spawnPoints (draws n).1 (draws n).2.1 (draws n).2.2

/-- All four numeric components of a particle are finite. -/
def ParticleJS.allFinite (p : ParticleJS) : Prop :=
  p.x.isFinite ∧ p.y.isFinite ∧ p.vx.isFinite ∧ p.vy.isFinite

theorem respawnIfInvalid_post (p : ParticleJS) (sp : List SpawnPoint)
    (radius cosA sinA : ℚ) (hsp : sp ≠ []) (p2 : ParticleJS)
    (h : respawnIfInvalid p sp radius cosA sinA = some p2) :
    p2.allFinite ∧
      (¬ p.allFinite →
        p2.trail = [] ∧
        p2.x = .num ((sp.getD (p.id % sp.length) ⟨0, 0, 0⟩).x + radius * cosA) ∧
        p2.y = .num ((sp.getD (p.id % sp.length) ⟨0, 0, 0⟩).y + radius * sinA) ∧
        p2.vx = .num (-(1/2) * sinA) ∧ p2.vy = .num ((1/2) * cosA)) := by
  unfold respawnIfInvalid at h
  by_cases hfin : p.x.isFinite && p.y.isFinite && p.vx.isFinite && p.vy.isFinite
  · rw [if_pos hfin] at h
    cases h
    constructor
    · simp only [Bool.and_eq_true] at hfin
      exact ⟨hfin.1.1.1, hfin.1.1.2, hfin.1.2, hfin.2⟩
    · intro hnot
      exfalso
      apply hnot
      simp only [Bool.and_eq_true] at hfin
      exact ⟨hfin.1.1.1, hfin.1.1.2, hfin.1.2, hfin.2⟩
  · rw [if_neg hfin] at h
    rw [if_neg (by simpa [List.isEmpty_iff] using hsp)] at h
    cases h
    refine ⟨⟨rfl, rfl, rfl, rfl⟩, fun _ => ⟨rfl, rfl, rfl, rfl, rfl⟩⟩

/-- C1: for every particle and every number of integration steps, after the
Integrator's post-step safety check the particle's position and velocity
components are all finite; whenever the check detects a non-finite component
it reinitializes the particle's position and velocity to finite values
(offsets from a spawn anchor) and clears its trail. -/
theorem respawn_safety :
    (∀ (p : ParticleJS) (sp : List SpawnPoint) (radius cosA sinA : ℚ)
        (p2 : ParticleJS), sp ≠ [] →
        respawnIfInvalid p sp radius cosA sinA = some p2 →
        p2.allFinite ∧
          (¬ p.allFinite →
            p2.trail = [] ∧
            p2.x = .num ((sp.getD (p.id % sp.length) ⟨0, 0, 0⟩).x + radius * cosA) ∧
            p2.y = .num ((sp.getD (p.id % sp.length) ⟨0, 0, 0⟩).y + radius * sinA) ∧
            p2.vx = .num (-(1/2) * sinA) ∧ p2.vy = .num ((1/2) * cosA))) ∧
    (∀ (f : ℕ → ParticleJS → ParticleJS) (sp : List SpawnPoint)
        (draws : ℕ → ℚ × ℚ × ℚ) (n : ℕ) (p0 p' : ParticleJS),
        sp ≠ [] → 0 < n →
        iterateChecked f sp draws n p0 = some p' → p'.allFinite) := by
  constructor
  · intro p sp radius cosA sinA p2 hsp h
    exact respawnIfInvalid_post p sp radius cosA sinA hsp p2 h
  · intro f sp draws n p0 p' hsp hn h
    cases n with
    | zero => exact absurd hn (by simp)
    | succ m =>
      simp only [iterateChecked, Option.bind_eq_bind, Option.bind_eq_some] at h
      obtain ⟨p1, _, h2⟩ := h
      exact (respawnIfInvalid_post _ sp _ _ _ hsp p' h2).1

/-- Witness for C1: a particle whose x became NaN is respawned to finite
state after one checked step. -/
theorem respawn_safety_witness :
    (([⟨0, 0, 2⟩] : List SpawnPoint) ≠ [] ∧ (0 : ℕ) < 1 ∧
      iterateChecked (fun _ q => q) [⟨0, 0, 2⟩] (fun _ => (1, 1, 0)) 1
          ⟨0, .nan, .num 0, .num 0, .num 0, []⟩ =
        some ⟨0, .num (0 + 1 * 1), .num (0 + 1 * 0), .num (-(1/2) * 0),
          .num ((1/2) * 1), []⟩) ∧
    (⟨0, .num (0 + 1 * 1), .num (0 + 1 * 0), .num (-(1/2) * 0),
      .num ((1/2) * 1), []⟩ : ParticleJS).allFinite :=
  ⟨⟨by simp, by simp, rfl⟩,
    respawn_safety.2 (fun _ q => q) [⟨0, 0, 2⟩] (fun _ => (1, 1, 0)) 1
      ⟨0, .nan, .num 0, .num 0, .num 0, []⟩ _ (by simp) (by simp) rfl⟩

/-- C2: after the boundary-handling step, a particle with finite position has
its x in the configured x-range and its y in the configured y-range; a
coordinate that exceeded its range is clamped to the boundary and the
corresponding velocity component is negated and attenuated by the
restitution factor; an in-range coordinate and its velocity are unchanged. -/
theorem boundary_bounds (p : ParticleQ) (config : PhysicsConfig)
    (hx : config.boundaries.x.min ≤ config.boundaries.x.max)
    (hy : config.boundaries.y.min ≤ config.boundaries.y.max) :
    (config.boundaries.x.min ≤ (applyBoundaryConditions p config).x ∧
      (applyBoundaryConditions p config).x ≤ config.boundaries.x.max) ∧
    (config.boundaries.y.min ≤ (applyBoundaryConditions p config).y ∧
      (applyBoundaryConditions p config).y ≤ config.boundaries.y.max) ∧
    (p.x < config.boundaries.x.min →
      (applyBoundaryConditions p config).x = config.boundaries.x.min ∧
      (applyBoundaryConditions p config).vx = p.vx * (-config.restitution)) ∧
    (config.boundaries.x.max < p.x →
      (applyBoundaryConditions p config).x = config.boundaries.x.max ∧
      (applyBoundaryConditions p config).vx = p.vx * (-config.restitution)) ∧
    (p.y < config.boundaries.y.min →
      (applyBoundaryConditions p config).y = config.boundaries.y.min ∧
      (applyBoundaryConditions p config).vy = p.vy * (-config.restitution)) ∧
    (config.boundaries.y.max < p.y →
      (applyBoundaryConditions p config).y = config.boundaries.y.max ∧
      (applyBoundaryConditions p config).vy = p.vy * (-config.restitution)) ∧
    (config.boundaries.x.min ≤ p.x → p.x ≤ config.boundaries.x.max →
      (applyBoundaryConditions p config).x = p.x ∧
      (applyBoundaryConditions p config).vx = p.vx) ∧
    (config.boundaries.y.min ≤ p.y → p.y ≤ config.boundaries.y.max →
      (applyBoundaryConditions p config).y = p.y ∧
      (applyBoundaryConditions p config).vy = p.vy) := by
  unfold applyBoundaryConditions
  dsimp only
  split_ifs <;>
    refine ⟨⟨?_, ?_⟩, ⟨?_, ?_⟩, ?_, ?_, ?_, ?_, ?_, ?_⟩ <;>
    (try intro hA hB) <;> (try intro hA) <;>
    first
      | exact ⟨rfl, rfl⟩
      | linarith

/-- Witness for C2 at a concrete out-of-range particle and configuration. -/
theorem boundary_bounds_witness :
    ((-10 : ℚ) ≤ 10 ∧ (-10 : ℚ) ≤ 10) ∧
    (let cfg : PhysicsConfig :=
      ⟨1/2, 2, 16/1000, ⟨⟨-10, 10⟩, ⟨-10, 10⟩⟩, 8/10⟩
    let p : ParticleQ := ⟨0, 12, -11, 3, -2, []⟩
    (cfg.boundaries.x.min ≤ (applyBoundaryConditions p cfg).x ∧
      (applyBoundaryConditions p cfg).x ≤ cfg.boundaries.x.max) ∧
    (cfg.boundaries.y.min ≤ (applyBoundaryConditions p cfg).y ∧
      (applyBoundaryConditions p cfg).y ≤ cfg.boundaries.y.max)) := by
  refine ⟨⟨by norm_num, by norm_num⟩, ?_⟩
  have h := boundary_bounds ⟨0, 12, -11, 3, -2, []⟩
    ⟨1/2, 2, 16/1000, ⟨⟨-10, 10⟩, ⟨-10, 10⟩⟩, 8/10⟩ (by norm_num) (by norm_num)
  exact ⟨h.1, h.2.1⟩

theorem computeGradient_miss (phi : ℚ → ℚ → ℚ) (cacheSize : ℕ)
    (cache : GradCache) (x y : ℚ) (hmiss : cacheGet cache (gradKey x y) = none) :
    (computeGradient phi cacheSize cache x y).1 =
      ⟨(phi (x + 1/100) y - phi (x - 1/100) y) / (2 * (1/100)),
        (phi x (y + 1/100) - phi x (y - 1/100)) / (2 * (1/100))⟩ := by
  unfold computeGradient
  simp only [hmiss]

/-- C7: one integration step, on a gradient-cache miss, computes the gradient
as the symmetric central difference of the potential at the current position
with step h = 0.01, the acceleration as −γ·velocity − α·gradient, and updates
the velocity by acceleration·dt before updating the position by the updated
velocity·dt (velocity-first ordering). -/
theorem integration_formula (phi : ℚ → ℚ → ℚ) (config : PhysicsConfig)
    (cache : GradCache) (p : ParticleQ)
    (hmiss : cacheGet cache (gradKey p.x p.y) = none) :
    (computeGradient phi 500 cache p.x p.y).1.dx =
        (phi (p.x + 1/100) p.y - phi (p.x - 1/100) p.y) / (2 * (1/100)) ∧
    (computeGradient phi 500 cache p.x p.y).1.dy =
        (phi p.x (p.y + 1/100) - phi p.x (p.y - 1/100)) / (2 * (1/100)) ∧
    (integrateSymplecticEuler p (computeGradient phi 500 cache p.x p.y).1
        config).vx =
      p.vx + (-config.gamma * p.vx -
        config.alpha * (computeGradient phi 500 cache p.x p.y).1.dx) *
          config.dt ∧
    (integrateSymplecticEuler p (computeGradient phi 500 cache p.x p.y).1
        config).vy =
      p.vy + (-config.gamma * p.vy -
        config.alpha * (computeGradient phi 500 cache p.x p.y).1.dy) *
          config.dt ∧
    (integrateSymplecticEuler p (computeGradient phi 500 cache p.x p.y).1
        config).x =
      p.x + (integrateSymplecticEuler p
        (computeGradient phi 500 cache p.x p.y).1 config).vx * config.dt ∧
    (integrateSymplecticEuler p (computeGradient phi 500 cache p.x p.y).1
        config).y =
      p.y + (integrateSymplecticEuler p
        (computeGradient phi 500 cache p.x p.y).1 config).vy * config.dt := by
  refine ⟨?_, ?_, rfl, rfl, rfl, rfl⟩ <;>
    rw [computeGradient_miss phi 500 cache p.x p.y hmiss]

/-- Witness for C7: concrete potential x² + y², empty cache, concrete
particle and configuration. -/
theorem integration_formula_witness :
    cacheGet [] (gradKey (2 : ℚ) 1) = none ∧
    ((computeGradient (fun a b => a * a + b * b) 500 [] (2 : ℚ) 1).1.dx =
        (((2 : ℚ) + 1/100) * (2 + 1/100) + 1 * 1 -
          ((2 - 1/100) * (2 - 1/100) + 1 * 1)) / (2 * (1/100)) ∧
      (integrateSymplecticEuler ⟨0, 2, 1, 3, -1, []⟩
          (computeGradient (fun a b => a * a + b * b) 500 [] (2 : ℚ) 1).1
          ⟨1/2, 2, 16/1000, ⟨⟨-10, 10⟩, ⟨-10, 10⟩⟩, 8/10⟩).x =
        (2 : ℚ) + (integrateSymplecticEuler ⟨0, 2, 1, 3, -1, []⟩
          (computeGradient (fun a b => a * a + b * b) 500 [] (2 : ℚ) 1).1
          ⟨1/2, 2, 16/1000, ⟨⟨-10, 10⟩, ⟨-10, 10⟩⟩, 8/10⟩).vx * (16/1000)) := by
  refine ⟨rfl, ?_⟩
  have h := integration_formula (fun a b => a * a + b * b)
    ⟨1/2, 2, 16/1000, ⟨⟨-10, 10⟩, ⟨-10, 10⟩⟩, 8/10⟩ [] ⟨0, 2, 1, 3, -1, []⟩ rfl
  exact ⟨h.1, h.2.2.2.2.1⟩

/-! ## Isoline (Contour) Extractor
(source file `src/components/visual-effects/CriticalTransitionContour.tsx`)

Marching Squares over one grid cell.  The source runs this for the fixed
threshold `CRITICAL_VALUE = -1/3`; the cell processor below takes the
threshold `c` as a parameter and `CRITICAL_VALUE` instantiates it. -/

namespace Contour

def CRITICAL_VALUE : ℚ := -(1 / 3)

/-- Linear interpolation helper (lines 57-60): the coordinate where the
field crosses the threshold `c` along an edge running from coordinate `t0`
(field value `v0`) to coordinate `t1` (field value `v1`). -/
def lerp (c v0 v1 t0 t1 : ℚ) : ℚ := t0 + (t1 - t0) * ((c - v0) / (v1 - v0))

/-- One grid cell: corner values (v0 bottom-left, v1 bottom-right,
v2 top-right, v3 top-left, lines 66-69) and geometry. -/
structure Cell where
  v0 : ℚ
  v1 : ℚ
  v2 : ℚ
  v3 : ℚ
  x0 : ℚ
  y0 : ℚ
  dx : ℚ
  dy : ℚ
deriving DecidableEq, Repr

/-- The 4-bit Marching Squares case index (lines 75-79): bit set when the
corner value is strictly below the threshold. -/
def squareIndex (c : ℚ) (cell : Cell) : ℕ :=
  (if cell.v0 < c then 1 else 0) + (if cell.v1 < c then 2 else 0) +
    (if cell.v2 < c then 4 else 0) + (if cell.v3 < c then 8 else 0)

/-- `getPoint` (lines 82-91) restricted to the 2D plane: the interpolated
point on the given edge (0 bottom, 1 right, 2 top, 3 left); the renderer
lifts it to 3D as `[px, potential(px,py)+0.15, -py]`.  For an argument
outside 0-3 the source leaves `(x0, y0)`. -/
def getPoint (c : ℚ) (cell : Cell) : ℕ → ℚ × ℚ
  | 0 => (lerp c cell.v0 cell.v1 cell.x0 (cell.x0 + cell.dx), cell.y0)
  | 1 => (cell.x0 + cell.dx, lerp c cell.v1 cell.v2 cell.y0 (cell.y0 + cell.dy))
  | 2 => (lerp c cell.v3 cell.v2 cell.x0 (cell.x0 + cell.dx), cell.y0 + cell.dy)
  | 3 => (cell.x0, lerp c cell.v0 cell.v3 cell.y0 (cell.y0 + cell.dy))
  | _ => (cell.x0, cell.y0)

/-- The switch of lines 99-115 as a lookup table of edge pairs. -/
def segTable : ℕ → List (ℕ × ℕ)
  | 1 => [(3, 0)]
  | 2 => [(0, 1)]
  | 3 => [(3, 1)]
  | 4 => [(1, 2)]
  | 5 => [(0, 1), (2, 3)]
  | 6 => [(0, 2)]
  | 7 => [(3, 2)]
  | 8 => [(2, 3)]
  | 9 => [(0, 2)]
  | 10 => [(0, 3), (1, 2)]
  | 11 => [(1, 2)]
  | 12 => [(3, 1)]
  | 13 => [(0, 1)]
  | 14 => [(3, 0)]
  | _ => []

/-- The segments contributed by one cell (lines 93-115). -/
def cellSegments (c : ℚ) (cell : Cell) : List ((ℚ × ℚ) × (ℚ × ℚ)) :=
  (segTable (squareIndex c cell)).map
    (fun e => (getPoint c cell e.1, getPoint c cell e.2))

/-- The pair of corner values at the ends of an edge, in the order the
source interpolates them (edge 2 goes from v3 to v2, edge 3 from v0 to v3). -/
def edgeVals (cell : Cell) : ℕ → ℚ × ℚ
  | 0 => (cell.v0, cell.v1)
  | 1 => (cell.v1, cell.v2)
  | 2 => (cell.v3, cell.v2)
  | 3 => (cell.v0, cell.v3)
  | _ => (0, 0)

/-- An edge straddles the threshold: one end is classified below (value < c)
and the other above (value ≥ c). -/
def straddles (c : ℚ) (cell : Cell) (e : ℕ) : Prop :=
  ((edgeVals cell e).1 < c ∧ c ≤ (edgeVals cell e).2) ∨
    ((edgeVals cell e).2 < c ∧ c ≤ (edgeVals cell e).1)

theorem segTable_edges_straddle (c : ℚ) (cell : Cell) (e1 e2 : ℕ)
    (hmem : (e1, e2) ∈ segTable (squareIndex c cell)) :
    e1 < 4 ∧ e2 < 4 ∧ straddles c cell e1 ∧ straddles c cell e2 := by
  have he1 := List.mem_map_of_mem Prod.fst hmem
  have he2 := List.mem_map_of_mem Prod.snd hmem
  clear hmem
  by_cases h0 : cell.v0 < c <;> by_cases h1 : cell.v1 < c <;>
    by_cases h2 : cell.v2 < c <;> by_cases h3 : cell.v3 < c <;>
    simp only [squareIndex, h0, h1, h2, h3, ite_true, ite_false] at he1 he2 <;>
    norm_num [segTable] at he1 he2 <;>
    refine ⟨?_, ?_, ?_, ?_⟩ <;>
    (first
      | (rcases he1 with rfl)
      | (rcases he1 with rfl | rfl)) <;>
    (first
      | (rcases he2 with rfl)
      | (rcases he2 with rfl | rfl)) <;>
    first
      | omega
      | (dsimp only [straddles, edgeVals]
         first
           | (refine Or.inl ⟨?_, ?_⟩ <;> solve_by_elim [not_lt.mp])
           | (refine Or.inr ⟨?_, ?_⟩ <;> solve_by_elim [not_lt.mp]))

/-- On a straddling edge, the interpolation parameter `(c - a) / (b - a)`
lies in [0, 1] and the linearly interpolated field value at it is exactly
the threshold. -/
theorem straddles_lerp_crosses (a b c : ℚ)
    (h : (a < c ∧ c ≤ b) ∨ (b < c ∧ c ≤ a)) :
    a + (b - a) * ((c - a) / (b - a)) = c ∧
      0 ≤ (c - a) / (b - a) ∧ (c - a) / (b - a) ≤ 1 := by
  have hne : b - a ≠ 0 := by
    rcases h with ⟨h1, h2⟩ | ⟨h1, h2⟩ <;> intro hz <;> nlinarith
  refine ⟨by field_simp, ?_, ?_⟩
  · rcases h with ⟨h1, h2⟩ | ⟨h1, h2⟩
    · exact div_nonneg (by linarith) (by linarith)
    · exact div_nonneg_of_nonpos (by linarith) (by linarith)
  · rcases h with ⟨h1, h2⟩ | ⟨h1, h2⟩
    · rw [div_le_one (by linarith)]
      linarith
    · rw [div_le_one_of_neg (by linarith)]
      linarith

/-- The geometric endpoints of a cell edge (0 bottom, 1 right, 2 top,
3 left), in the orientation the source interpolates. -/
def edgeEndpoints (cell : Cell) : ℕ → (ℚ × ℚ) × (ℚ × ℚ)
  | 0 => ((cell.x0, cell.y0), (cell.x0 + cell.dx, cell.y0))
  | 1 => ((cell.x0 + cell.dx, cell.y0), (cell.x0 + cell.dx, cell.y0 + cell.dy))
  | 2 => ((cell.x0, cell.y0 + cell.dy), (cell.x0 + cell.dx, cell.y0 + cell.dy))
  | 3 => ((cell.x0, cell.y0), (cell.x0, cell.y0 + cell.dy))
  | _ => ((cell.x0, cell.y0), (cell.x0, cell.y0))

/-- The interpolation parameter `(c - a) / (b - a)` along an edge whose
corner values are `(a, b)`. -/
def edgeParam (c : ℚ) (cell : Cell) (e : ℕ) : ℚ :=
  (c - (edgeVals cell e).1) / ((edgeVals cell e).2 - (edgeVals cell e).1)

theorem getPoint_onEdge (c : ℚ) (cell : Cell) (e : ℕ) (he : e < 4) :
    getPoint c cell e =
      ((edgeEndpoints cell e).1.1 +
          ((edgeEndpoints cell e).2.1 - (edgeEndpoints cell e).1.1) *
            edgeParam c cell e,
        (edgeEndpoints cell e).1.2 +
          ((edgeEndpoints cell e).2.2 - (edgeEndpoints cell e).1.2) *
            edgeParam c cell e) := by
  interval_cases e <;>
    simp only [getPoint, edgeEndpoints, edgeVals, edgeParam, lerp,
      Prod.mk.injEq] <;>
    constructor <;> ring

/-- C8: every segment emitted for a grid cell consists of endpoints that are
the interpolated crossing points of cell edges whose corner values straddle
the threshold (field value at the interpolation parameter equals the
threshold, parameter within [0,1], point on the edge segment); and the
ambiguous saddle case indices 5 and 10 emit exactly the two diagonal
segment pairs. -/
theorem contour_marching_squares (c : ℚ) (cell : Cell) :
    (∀ s ∈ cellSegments c cell, ∀ p ∈ [s.1, s.2],
      ∃ e, e < 4 ∧ straddles c cell e ∧ p = getPoint c cell e ∧
        0 ≤ edgeParam c cell e ∧ edgeParam c cell e ≤ 1 ∧
        (edgeVals cell e).1 +
            ((edgeVals cell e).2 - (edgeVals cell e).1) * edgeParam c cell e
          = c ∧
        p = ((edgeEndpoints cell e).1.1 +
              ((edgeEndpoints cell e).2.1 - (edgeEndpoints cell e).1.1) *
                edgeParam c cell e,
            (edgeEndpoints cell e).1.2 +
              ((edgeEndpoints cell e).2.2 - (edgeEndpoints cell e).1.2) *
                edgeParam c cell e)) ∧
    (squareIndex c cell = 5 →
      cellSegments c cell =
        [(getPoint c cell 0, getPoint c cell 1),
          (getPoint c cell 2, getPoint c cell 3)]) ∧
    (squareIndex c cell = 10 →
      cellSegments c cell =
        [(getPoint c cell 0, getPoint c cell 3),
          (getPoint c cell 1, getPoint c cell 2)]) := by
  refine ⟨?_, ?_, ?_⟩
  · intro s hs p hp
    obtain ⟨⟨e1, e2⟩, hmem, rfl⟩ := List.mem_map.mp hs
    obtain ⟨hlt1, hlt2, hst1, hst2⟩ :=
      segTable_edges_straddle c cell e1 e2 hmem
    have key : ∀ e, e < 4 → straddles c cell e →
        ∃ e2, e2 < 4 ∧ straddles c cell e2 ∧
          getPoint c cell e = getPoint c cell e2 ∧
          0 ≤ edgeParam c cell e2 ∧ edgeParam c cell e2 ≤ 1 ∧
          (edgeVals cell e2).1 +
              ((edgeVals cell e2).2 - (edgeVals cell e2).1) *
                edgeParam c cell e2 = c ∧
          getPoint c cell e =
            ((edgeEndpoints cell e2).1.1 +
                ((edgeEndpoints cell e2).2.1 - (edgeEndpoints cell e2).1.1) *
                  edgeParam c cell e2,
              (edgeEndpoints cell e2).1.2 +
                ((edgeEndpoints cell e2).2.2 - (edgeEndpoints cell e2).1.2) *
                  edgeParam c cell e2) := by
      intro e he hst
      obtain ⟨hc, h0, h1⟩ :=
        straddles_lerp_crosses (edgeVals cell e).1 (edgeVals cell e).2 c hst
      exact ⟨e, he, hst, rfl, h0, h1, hc, getPoint_onEdge c cell e he⟩
    simp only [List.mem_cons, List.mem_singleton, List.not_mem_nil,
      or_false] at hp
    rcases hp with rfl | rfl
    · exact key e1 hlt1 hst1
    · exact key e2 hlt2 hst2
  · intro hidx
    simp only [cellSegments, hidx, segTable, List.map_cons, List.map_nil]
  · intro hidx
    simp only [cellSegments, hidx, segTable, List.map_cons, List.map_nil]

/-- Witness for C8: a concrete saddle cell with case index 5 emits exactly
the two diagonal segments. -/
theorem contour_marching_squares_witness :
    squareIndex 0 ⟨-1, 1, -1, 1, 0, 0, 1, 1⟩ = 5 ∧
      cellSegments 0 ⟨-1, 1, -1, 1, 0, 0, 1, 1⟩ =
        [(getPoint 0 ⟨-1, 1, -1, 1, 0, 0, 1, 1⟩ 0,
            getPoint 0 ⟨-1, 1, -1, 1, 0, 0, 1, 1⟩ 1),
          (getPoint 0 ⟨-1, 1, -1, 1, 0, 0, 1, 1⟩ 2,
            getPoint 0 ⟨-1, 1, -1, 1, 0, 0, 1, 1⟩ 3)] :=
  ⟨by norm_num [squareIndex],
    (contour_marching_squares 0 ⟨-1, 1, -1, 1, 0, 0, 1, 1⟩).2.1
      (by norm_num [squareIndex])⟩

end Contour

/-! ## Lyapunov Estimator (source file `src/services/lyapunov.ts`)

`generateLyapunovGrid` fills a row-major grid with per-point Lyapunov
exponent estimates and normalizes it.  The per-point estimator
`calculateLyapunovExponent` integrates two perturbed trajectories and
accumulates `Math.log(distance/PERTURBATION)`; its value is a machine float
that can be NaN or ±Infinity, so it is abstracted here as a function
`lyapExp : ℚ → ℚ → JSNum` (the claim under verification concerns only how
`generateLyapunovGrid` stores and normalizes these values). -/

namespace Lyapunov

/-- JavaScript `<` on numbers: any comparison with NaN is false. -/
def jsLtB : JSNum → JSNum → Bool
  | .nan, _ => false
  | _, .nan => false
  | .num a, .num b => decide (a < b)
  | .num _, .inf => true
  | .num _, .ninf => false
  | .inf, .inf => false
  | .inf, .num _ => false
  | .inf, .ninf => false
  | .ninf, .ninf => false
  | .ninf, _ => true

/-- JavaScript division on numbers (without distinguishing signed zero:
a nonzero value divided by zero gets the sign of its numerator). -/
def jsDiv : JSNum → JSNum → JSNum
  | .nan, _ => .nan
  | _, .nan => .nan
  | .num a, .num b =>
      if b = 0 then (if a = 0 then .nan else if 0 < a then .inf else .ninf)
      else .num (a / b)
  | .num _, .inf => .num 0
  | .num _, .ninf => .num 0
  | .inf, .num b => if b < 0 then .ninf else .inf
  | .ninf, .num b => if b < 0 then .inf else .ninf
  | .inf, .inf => .nan
  | .inf, .ninf => .nan
  | .ninf, .inf => .nan
  | .ninf, .ninf => .nan

/-- JavaScript `Math.max(0, x)`. -/
def jsMax0 : JSNum → JSNum
  | .num q => .num (max 0 q)
  | .nan => .nan
  | .inf => .inf
  | .ninf => .num 0

/-- The raw per-point exponent estimates, in the row-major order of the two
nested loops (lines 84-100).  The grid coordinates are the source's
`min + (index/(size-1))·(max-min)`; rational division by zero is 0 where the
JS expression for a 1-wide grid would be non-finite, which is immaterial
because the estimator is abstract in its arguments. -/
def rawLyapunovGrid (width height : ℕ) (xr yr : RangeQ)
    (lyapExp : ℚ → ℚ → JSNum) : List JSNum :=
  (List.range height).bind (fun j =>
    (List.range width).map (fun i =>
      lyapExp (xr.min + ((i : ℚ) / ((width : ℚ) - 1)) * (xr.max - xr.min))
        (yr.min + ((j : ℚ) / ((height : ℚ) - 1)) * (yr.max - yr.min))))

/-- The running maximum of the finite raw exponents, starting from
`-Infinity` (lines 82, 91-98). -/
def maxRawExponent (raw : List JSNum) : JSNum :=
  raw.foldl (fun m e => if e.isFinite && jsLtB m e then e else m) .ninf

/-- `generateLyapunovGrid` (lines 72-110): store each finite estimate (0 for
a non-finite one), then, when the maximum raw exponent is positive, divide
every entry by it and clamp below at 0. -/
def generateLyapunovGrid (width height : ℕ) (xr yr : RangeQ)
    (lyapExp : ℚ → ℚ → JSNum) : List JSNum :=
  let raw := rawLyapunovGrid width height xr yr lyapExp
  let data := raw.map (fun e => if e.isFinite then e else .num 0)
  let maxE := maxRawExponent raw
  if jsLtB (.num 0) maxE then data.map (fun v => jsMax0 (jsDiv v maxE))
  else data

theorem foldMax_props (l : List JSNum) (init : JSNum)
    (hinit : init = .ninf ∨ ∃ m, init = .num m) :
    (l.foldl (fun m e => if e.isFinite && jsLtB m e then e else m) init = .ninf ∨
      ∃ m, l.foldl (fun m e => if e.isFinite && jsLtB m e then e else m) init
        = .num m) ∧
    (∀ q, JSNum.num q ∈ l → ∀ m,
      l.foldl (fun m e => if e.isFinite && jsLtB m e then e else m) init
        = .num m → q ≤ m) ∧
    (∀ m0, init = .num m0 → ∀ m,
      l.foldl (fun m e => if e.isFinite && jsLtB m e then e else m) init
        = .num m → m0 ≤ m) := by
  induction l generalizing init with
  | nil =>
    refine ⟨hinit, ?_, ?_⟩
    · intro q hq
      simp at hq
    · intro m0 h0 m hm
      simp only [List.foldl_nil] at hm
      rw [h0] at hm
      cases hm
      exact le_refl _
  | cons e t ih =>
    have hstep : (e.isFinite && jsLtB init e) = true →
        (if e.isFinite && jsLtB init e then e else init) = e := by
      intro h
      rw [if_pos h]
    by_cases hc : (e.isFinite && jsLtB init e) = true
    · -- the head replaces the running maximum
      obtain ⟨hfin, _⟩ := Bool.and_eq_true_iff.mp hc
      obtain ⟨q0, rfl⟩ : ∃ q0, e = .num q0 := by
        cases e with
        | num q => exact ⟨q, rfl⟩
        | nan => simp [JSNum.isFinite] at hfin
        | inf => simp [JSNum.isFinite] at hfin
        | ninf => simp [JSNum.isFinite] at hfin
      have ih2 := ih (.num q0) (Or.inr ⟨q0, rfl⟩)
      refine ⟨?_, ?_, ?_⟩
      · simpa only [List.foldl_cons, if_pos hc] using ih2.1
      · intro q hq m hm
        simp only [List.foldl_cons, if_pos hc] at hm
        rcases List.mem_cons.mp hq with heq | hmem
        · cases heq
          exact ih2.2.2 q0 rfl m hm
        · exact ih2.2.1 q hmem m hm
      · intro m0 h0 m hm
        simp only [List.foldl_cons, if_pos hc] at hm
        have hq0 : m0 ≤ q0 := by
          subst h0
          have := Bool.and_eq_true_iff.mp hc
          have hlt := this.2
          simp only [jsLtB, decide_eq_true_eq] at hlt
          exact le_of_lt hlt
        exact le_trans hq0 (ih2.2.2 q0 rfl m hm)
    · -- the running maximum is kept
      have ih2 := ih init hinit
      refine ⟨?_, ?_, ?_⟩
      · simpa only [List.foldl_cons, if_neg hc] using ih2.1
      · intro q hq m hm
        simp only [List.foldl_cons, if_neg hc] at hm
        rcases List.mem_cons.mp hq with heq | hmem
        · -- the head is finite but did not beat the maximum
          subst heq
          have hfin : JSNum.isFinite (.num q) = true := rfl
          have hnlt : jsLtB init (.num q) = false := by
            cases hjs : jsLtB init (.num q)
            · rfl
            · exfalso
              apply hc
              rw [hfin, hjs]
              rfl
          rcases hinit with h0 | ⟨m0, h0⟩
          · subst h0
            simp [jsLtB] at hnlt
          · subst h0
            simp only [jsLtB, decide_eq_false_iff_not, not_lt] at hnlt
            exact le_trans hnlt (ih2.2.2 m0 rfl m hm)
        · exact ih2.2.1 q hmem m hm
      · intro m0 h0 m hm
        simp only [List.foldl_cons, if_neg hc] at hm
        exact ih2.2.2 m0 h0 m hm

/-- C10: every entry of the grid returned by generateLyapunovGrid is finite;
a point whose raw exponent is non-finite is stored as 0 (and remains 0 after
normalization); when the maximum raw exponent is positive, every entry lies
in [0,1]; and in that case any non-positive raw exponent is stored
indistinguishably from 0. -/
theorem lyapunov_grid (width height : ℕ) (xr yr : RangeQ)
    (lyapExp : ℚ → ℚ → JSNum) :
    (∀ v ∈ generateLyapunovGrid width height xr yr lyapExp,
      v.isFinite = true) ∧
    (jsLtB (.num 0)
        (maxRawExponent (rawLyapunovGrid width height xr yr lyapExp)) = true →
      ∀ v ∈ generateLyapunovGrid width height xr yr lyapExp,
        ∃ q, v = .num q ∧ 0 ≤ q ∧ q ≤ 1) ∧
    (∀ k e, (rawLyapunovGrid width height xr yr lyapExp).get? k = some e →
      e.isFinite = false →
      (generateLyapunovGrid width height xr yr lyapExp).get? k =
        some (.num 0)) ∧
    (jsLtB (.num 0)
        (maxRawExponent (rawLyapunovGrid width height xr yr lyapExp)) = true →
      ∀ k q,
        (rawLyapunovGrid width height xr yr lyapExp).get? k =
          some (.num q) → q ≤ 0 →
        (generateLyapunovGrid width height xr yr lyapExp).get? k =
          some (.num 0)) := by
  set raw := rawLyapunovGrid width height xr yr lyapExp with hraw
  have hfold := foldMax_props raw .ninf (Or.inl rfl)
  -- shape facts about the positive-maximum case
  have hmaxpos : jsLtB (.num 0) (maxRawExponent raw) = true →
      ∃ m, maxRawExponent raw = .num m ∧ 0 < m ∧
        ∀ q, JSNum.num q ∈ raw → q ≤ m := by
    intro hpos
    rcases hfold.1 with hshape | ⟨m, hshape⟩
    · rw [maxRawExponent] at hpos
      rw [hshape] at hpos
      simp [jsLtB] at hpos
    · refine ⟨m, hshape, ?_, ?_⟩
      · rw [maxRawExponent] at hpos
        rw [hshape] at hpos
        simpa [jsLtB] using hpos
      · intro q hq
        exact hfold.2.1 q hq m hshape
  by_cases hpos : jsLtB (.num 0) (maxRawExponent raw) = true
  · obtain ⟨m, hm, hmpos, hbound⟩ := hmaxpos hpos
    have hgrid : generateLyapunovGrid width height xr yr lyapExp =
        (raw.map (fun e => if e.isFinite then e else .num 0)).map
          (fun v => jsMax0 (jsDiv v (maxRawExponent raw))) := by
      rw [generateLyapunovGrid]
      rw [← hraw]
      rw [if_pos hpos]
    have hentry : ∀ v ∈ generateLyapunovGrid width height xr yr lyapExp,
        ∃ q, v = .num q ∧ 0 ≤ q ∧ q ≤ 1 := by
      intro v hv
      rw [hgrid] at hv
      obtain ⟨d, hd, rfl⟩ := List.mem_map.mp hv
      obtain ⟨e, he, rfl⟩ := List.mem_map.mp hd
      have hdq : ∃ q, (if e.isFinite then e else JSNum.num 0) = .num q ∧
          q ≤ m := by
        cases e with
        | num q => exact ⟨q, rfl, hbound q he⟩
        | nan => exact ⟨0, rfl, le_of_lt hmpos⟩
        | inf => exact ⟨0, rfl, le_of_lt hmpos⟩
        | ninf => exact ⟨0, rfl, le_of_lt hmpos⟩
      obtain ⟨q, hq, hqm⟩ := hdq
      rw [hq, hm]
      refine ⟨max 0 (q / m), ?_, le_max_left _ _, ?_⟩
      · simp only [jsDiv, if_neg (ne_of_gt hmpos), jsMax0]
      · rw [max_le_iff]
        exact ⟨by norm_num, (div_le_one hmpos).mpr hqm⟩
    refine ⟨?_, fun _ => hentry, ?_, ?_⟩
    · intro v hv
      obtain ⟨q, rfl, _, _⟩ := hentry v hv
      rfl
    · intro k e hk hfin
      rw [hgrid]
      rw [List.get?_map, List.get?_map, hk]
      have : (if e.isFinite then e else JSNum.num 0) = .num 0 := by
        rw [hfin]
        rfl
      simp only [Option.map_some']
      rw [this, hm]
      simp only [jsDiv, if_neg (ne_of_gt hmpos), zero_div, jsMax0,
        max_self]
    · intro _ k q hk hq0
      rw [hgrid]
      rw [List.get?_map, List.get?_map, hk]
      simp only [Option.map_some']
      have : (if (JSNum.num q).isFinite then JSNum.num q else JSNum.num 0) =
          .num q := rfl
      rw [this, hm]
      simp only [jsDiv, if_neg (ne_of_gt hmpos), jsMax0]
      have : q / m ≤ 0 := div_nonpos_of_nonpos_of_nonneg hq0 (le_of_lt hmpos)
      rw [max_eq_left this]
  · have hgrid : generateLyapunovGrid width height xr yr lyapExp =
        raw.map (fun e => if e.isFinite then e else .num 0) := by
      rw [generateLyapunovGrid]
      rw [← hraw]
      rw [if_neg hpos]
    refine ⟨?_, fun h => absurd h hpos, ?_, fun h => absurd h hpos⟩
    · intro v hv
      rw [hgrid] at hv
      obtain ⟨e, _, rfl⟩ := List.mem_map.mp hv
      cases e <;> rfl
    · intro k e hk hfin
      rw [hgrid, List.get?_map, hk]
      simp only [Option.map_some']
      rw [hfin]
      rfl

/-- Witness for C10: a 1×1 grid whose single raw estimate is NaN stores 0. -/
theorem lyapunov_grid_witness :
    ((rawLyapunovGrid 1 1 ⟨0, 1⟩ ⟨0, 1⟩ (fun _ _ => .nan)).get? 0 =
        some .nan ∧ JSNum.nan.isFinite = false) ∧
    (generateLyapunovGrid 1 1 ⟨0, 1⟩ ⟨0, 1⟩ (fun _ _ => .nan)).get? 0 =
      some (.num 0) :=
  ⟨⟨rfl, rfl⟩,
    (lyapunov_grid 1 1 ⟨0, 1⟩ ⟨0, 1⟩ (fun _ _ => .nan)).2.2.1 0 .nan rfl rfl⟩

end Lyapunov

/-! ## Expression Evaluator (source files part_011 / part_012,
`createConfiguredMathParser`)

The evaluator wraps mathjs.  Its semantics is modelled by a small expression
language: numeric literals, variables, and calls (arithmetic operators are
calls of pure builtins).  A `FnDef` body is the mathjs-parsed AST of the
stored `G3DFunction.body` text.  The fixed pure builtin library (sin, cos,
clamp, ...) is a parameter `builtins`; the alias `RAND = random` of the
source's alias table makes the impure `random` builtin reachable under both
names, modelled by a draw from an explicit stream `rng` at position `ctr`
(the stream position is mathjs's hidden PRNG state).  Function assignments
in mathjs bind lazily (they succeed even when the body references a symbol
that is not yet defined), while a zero-parameter assignment evaluates its
body immediately; the multi-pass binding loop of the source retries exactly
those immediate evaluations. -/

namespace Evaluator

inductive Expr where
  | num (q : ℚ)
  | var (name : String)
  | call (fname : String) (args : List Expr)

/-- A user function as bound into the evaluator: parameter names and the
parsed body. -/
structure FnDef where
  params : List String
  body : Expr

/-- The evaluator state: value bindings (bound constants) and function
bindings, each keyed by name. -/
structure ParserState where
  consts : List (String × ℚ)
  fns : List (String × FnDef)

def lookupStr {α : Type} (l : List (String × α)) (s : String) : Option α :=
  (l.find? (fun p => p.1 == s)).map (fun p => p.2)

/- An expression makes no use of the impure `random` builtin (exposed as
`RAND` by the source's alias table). -/
mutual

/-- Marks an expression free of the random builtin under both its names. -/
def randFree : Expr → Bool
  | .num _ => true
  | .var _ => true
  | .call f args => !(f == "RAND" || f == "random") && randFreeAll args

def randFreeAll : List Expr → Bool
  | [] => true
  | e :: es => randFree e && randFreeAll es

end

/-- Expression evaluation with fuel, structurally recursive on the fuel.
Returns the value and the advanced stream position; `none` models a thrown
mathjs evaluation error (undefined symbol, arity mismatch) or fuel
exhaustion.  Arguments are evaluated left to right, threading the stream. -/
def eval (builtins : String → Option (List ℚ → ℚ)) :
    ℕ → ParserState → List (String × ℚ) → (ℕ → ℚ) → ℕ → Expr →
    Option (ℚ × ℕ)
  | 0, _, _, _, _, _ => none
  | fuel + 1, st, binds, rng, ctr, e =>
    match e with
    | .num q => some (q, ctr)
    | .var x =>
      match lookupStr binds x with
      | some v => some (v, ctr)
      | none => (lookupStr st.consts x).map (fun v => (v, ctr))
    | .call f args =>
      let argsRes := args.foldl
        (fun acc a => acc.bind (fun p =>
          (eval builtins fuel st binds rng p.2 a).map
            (fun q => (p.1 ++ [q.1], q.2))))
        (some ([], ctr))
      argsRes.bind (fun p =>
        if f == "RAND" || f == "random" then some (rng p.2, p.2 + 1)
        else
          match lookupStr st.fns f with
          | some fn =>
            if fn.params.length = p.1.length then
              eval builtins fuel st (fn.params.zip p.1) rng p.2 fn.body
            else none
          | none => (builtins f).map (fun bf => (bf p.1, p.2)))

/-- One binding attempt (one `parser.evaluate(signature = body)` of the
source loop): a zero-parameter definition is evaluated immediately and bound
as a value; a function definition is bound lazily and always succeeds. -/
def tryBindOne (builtins : String → Option (List ℚ → ℚ)) (fuel : ℕ)
    (st : ParserState) (rng : ℕ → ℚ) (ctr : ℕ) (name : String)
    (fn : FnDef) : Option (ParserState × ℕ) :=
  if fn.params.isEmpty then
    match eval builtins fuel st [] rng ctr fn.body with
    | some (v, ctr2) => some ({ st with consts := st.consts ++ [(name, v)] }, ctr2)
    | none => none
  else
    some ({ st with fns := st.fns ++ [(name, fn)] }, ctr)

/-- One pass over the remaining functions (the inner `for` of lines
107-117): bind what can be bound, defer failures, report whether anything
changed. -/
def bindPass (builtins : String → Option (List ℚ → ℚ)) (fuel : ℕ)
    (rng : ℕ → ℚ) :
    List (String × FnDef) → ParserState → ℕ →
      List (String × FnDef) × ParserState × ℕ × Bool
  | [], st, ctr => ([], st, ctr, false)
  | (n, fn) :: rest, st, ctr =>
    match tryBindOne builtins fuel st rng ctr n fn with
    | some (st2, ctr2) =>
      let r := bindPass builtins fuel rng rest st2 ctr2
      (r.1, r.2.1, r.2.2.1, true)
    | none =>
      let r := bindPass builtins fuel rng rest st ctr
      ((n, fn) :: r.1, r.2.1, r.2.2.1, r.2.2.2)

/-- The retry loop of lines 104-118: up to `maxPasses` passes while progress
is made and functions remain. -/
def bindLoop (builtins : String → Option (List ℚ → ℚ)) (fuel : ℕ)
    (rng : ℕ → ℚ) :
    ℕ → List (String × FnDef) → ParserState → ℕ → ParserState × ℕ
  | 0, _, st, ctr => (st, ctr)
  | passes + 1, remaining, st, ctr =>
    if remaining.isEmpty then (st, ctr)
    else
      let r := bindPass builtins fuel rng remaining st ctr
      if r.2.2.2 then bindLoop builtins fuel rng passes r.1 r.2.1 r.2.2.1
      else (r.2.1, r.2.2.1)

/-- `createConfiguredMathParser` (part_011 lines 67-125): bind the user
functions by iterated passes, `maxPasses = count + 1`, into a fresh state. -/
def createConfiguredMathParser (builtins : String → Option (List ℚ → ℚ))
    (fuel : ℕ) (functions : List (String × FnDef)) (rng : ℕ → ℚ) (ctr : ℕ) :
    ParserState × ℕ :=
  bindLoop builtins fuel rng (functions.length + 1) functions ⟨[], []⟩ ctr

theorem bindPass_fns_sub (builtins : String → Option (List ℚ → ℚ))
    (fuel : ℕ) (rng : ℕ → ℚ) (remaining : List (String × FnDef))
    (st : ParserState) (ctr : ℕ) (S : List (String × FnDef)) :
    (∀ p ∈ remaining, p ∈ S) → (∀ p ∈ st.fns, p ∈ S) →
    (∀ p ∈ (bindPass builtins fuel rng remaining st ctr).2.1.fns, p ∈ S) ∧
    (∀ p ∈ (bindPass builtins fuel rng remaining st ctr).1, p ∈ S) := by
  induction remaining generalizing st ctr with
  | nil =>
    intro _ hst
    exact ⟨hst, by simp [bindPass]⟩
  | cons hd tl ih =>
    intro hrem hst
    have hhd : hd ∈ S := hrem hd (List.mem_cons_self hd tl)
    have htl : ∀ p ∈ tl, p ∈ S := fun p hp => hrem p (List.mem_cons_of_mem hd hp)
    obtain ⟨n, fn⟩ := hd
    simp only [bindPass]
    cases hbind : tryBindOne builtins fuel st rng ctr n fn with
    | none =>
      have hrec := ih st ctr htl hst
      refine ⟨hrec.1, ?_⟩
      intro p hp
      rcases List.mem_cons.mp hp with rfl | hp2
      · exact hhd
      · exact hrec.2 p hp2
    | some res =>
      have hst2 : ∀ p ∈ res.1.fns, p ∈ S := by
        intro p hp
        unfold tryBindOne at hbind
        by_cases hpar : fn.params.isEmpty
        · rw [if_pos hpar] at hbind
          cases heval : eval builtins fuel st [] rng ctr fn.body with
          | none => rw [heval] at hbind; cases hbind
          | some vc =>
            rw [heval] at hbind
            cases hbind
            exact hst p hp
        · rw [if_neg hpar] at hbind
          cases hbind
          rcases List.mem_append.mp hp with hp2 | hp2
          · exact hst p hp2
          · rcases List.mem_singleton.mp hp2 with rfl
            exact hhd
      exact ⟨(ih res.1 res.2 htl hst2).1, (ih res.1 res.2 htl hst2).2⟩

/-- Every function bound by the multi-pass binder comes from the supplied
function list. -/
theorem createConfiguredMathParser_fns_sub
    (builtins : String → Option (List ℚ → ℚ)) (fuel : ℕ)
    (functions : List (String × FnDef)) (rng : ℕ → ℚ) (ctr : ℕ) :
    ∀ p ∈ (createConfiguredMathParser builtins fuel functions rng ctr).1.fns,
      p ∈ functions := by
  have main : ∀ (passes : ℕ) (remaining : List (String × FnDef))
      (st : ParserState) (ctr0 : ℕ),
      (∀ p ∈ remaining, p ∈ functions) → (∀ p ∈ st.fns, p ∈ functions) →
      ∀ p ∈ (bindLoop builtins fuel rng passes remaining st ctr0).1.fns,
        p ∈ functions := by
    intro passes
    induction passes with
    | zero => intro remaining st ctr0 _ hst; exact hst
    | succ k ih =>
      intro remaining st ctr0 hrem hst
      simp only [bindLoop]
      by_cases hemp : remaining.isEmpty
      · rw [if_pos hemp]; exact hst
      · rw [if_neg hemp]
        have hp := bindPass_fns_sub builtins fuel rng remaining st ctr0
          functions hrem hst
        by_cases hch : (bindPass builtins fuel rng remaining st ctr0).2.2.2
        · rw [if_pos hch]
          exact ih _ _ _ hp.2 hp.1
        · rw [if_neg hch]
          exact hp.1
  exact main (functions.length + 1) functions ⟨[], []⟩ ctr
    (fun p hp => hp) (by simp)

theorem lookupStr_mem {α : Type} {l : List (String × α)} {s : String}
    {a : α} (h : lookupStr l s = some a) : (s, a) ∈ l := by
  unfold lookupStr at h
  cases hf : l.find? (fun p => p.1 == s) with
  | none => rw [hf] at h; cases h
  | some pr =>
    rw [hf] at h
    simp only [Option.map_some'] at h
    have hmem := List.mem_of_find?_eq_some hf
    have hpred := List.find?_some hf
    obtain ⟨k, v⟩ := pr
    simp only [beq_iff_eq] at hpred
    cases h
    cases hpred
    exact hmem

theorem randFreeAll_mem {args : List Expr} (h : randFreeAll args = true) :
    ∀ a ∈ args, randFree a = true := by
  induction args with
  | nil => intro a ha; cases ha
  | cons hd tl ih =>
    intro a ha
    rw [randFreeAll, Bool.and_eq_true] at h
    rcases List.mem_cons.mp ha with rfl | ha2
    · exact h.1
    · exact ih h.2 a ha2

/-- Evaluation of random-free expressions in a random-free function
environment neither reads nor advances the hidden stream: its result equals
the canonical run's value paired with the unchanged stream position. -/
theorem eval_stream_indep (b : String → Option (List ℚ → ℚ)) :
    ∀ (fuel : ℕ) (st : ParserState) (binds : List (String × ℚ)) (e : Expr)
        (rng : ℕ → ℚ) (ctr : ℕ),
      (∀ p ∈ st.fns, randFree p.2.body = true) → randFree e = true →
      eval b fuel st binds rng ctr e =
        (eval b fuel st binds (fun _ => 0) 0 e).map (fun p => (p.1, ctr)) := by
  intro fuel
  induction fuel with
  | zero =>
    intro st binds e rng ctr _ _
    rfl
  | succ f ih =>
    intro st binds e rng ctr hst he
    have hnone : ∀ (rng2 : ℕ → ℚ) (args : List Expr),
        args.foldl
          (fun acc a => acc.bind (fun p =>
            (eval b f st binds rng2 p.2 a).map
              (fun q => (p.1 ++ [q.1], q.2))))
          none = none := by
      intro rng2 args
      induction args with
      | nil => rfl
      | cons a as ih2 => exact ih2
    have hfold : ∀ (args : List Expr), (∀ a ∈ args, randFree a = true) →
        ∀ (rng2 : ℕ → ℚ) (vs : List ℚ) (c : ℕ),
        args.foldl
          (fun acc a => acc.bind (fun p =>
            (eval b f st binds rng2 p.2 a).map
              (fun q => (p.1 ++ [q.1], q.2))))
          (some (vs, c)) =
        (args.foldl
          (fun acc a => acc.bind (fun p =>
            (eval b f st binds (fun _ => 0) p.2 a).map
              (fun q => (p.1 ++ [q.1], q.2))))
          (some (vs, 0))).map (fun p => (p.1, c)) := by
      intro args
      induction args with
      | nil =>
        intro _ rng2 vs c
        rfl
      | cons a as ih2 =>
        intro hfree rng2 vs c
        have hafree : randFree a = true := hfree a (List.mem_cons_self a as)
        have hasfree : ∀ x ∈ as, randFree x = true :=
          fun x hx => hfree x (List.mem_cons_of_mem a hx)
        simp only [List.foldl_cons, Option.some_bind]
        rw [ih st binds a rng2 c hst hafree]
        cases hCE : eval b f st binds (fun _ => 0) 0 a with
        | none =>
          simp only [Option.map_none']
          rw [hnone rng2 as, hnone (fun _ => 0) as]
          rfl
        | some pe =>
          simp only [Option.map_some']
          rw [ih2 hasfree rng2 (vs ++ [pe.1]) c]
          rw [ih2 hasfree (fun _ => 0) (vs ++ [pe.1]) pe.2]
          cases as.foldl
              (fun acc a => acc.bind (fun p =>
                (eval b f st binds (fun _ => 0) p.2 a).map
                  (fun q => (p.1 ++ [q.1], q.2))))
              (some (vs ++ [pe.1], 0)) <;> rfl
    cases e with
    | num q => rfl
    | var x =>
      simp only [eval]
      cases hb : lookupStr binds x with
      | some v => rfl
      | none => cases hc : lookupStr st.consts x <;> rfl
    | call fname args =>
      rw [randFree, Bool.and_eq_true, Bool.not_eq_true'] at he
      obtain ⟨hname, hargsfree⟩ := he
      have hargs := randFreeAll_mem hargsfree
      simp only [eval]
      rw [hfold args hargs rng [] ctr]
      cases hF : args.foldl
          (fun acc a => acc.bind (fun p =>
            (eval b f st binds (fun _ => 0) p.2 a).map
              (fun q => (p.1 ++ [q.1], q.2))))
          (some ([], 0)) with
      | none => rfl
      | some pv =>
        simp only [Option.map_some', Option.some_bind]
        rw [hname]
        simp only [Bool.false_eq_true, if_false]
        cases hfn : lookupStr st.fns fname with
        | some fn =>
          dsimp only
          by_cases hlen : fn.params.length = pv.1.length
          · rw [if_pos hlen, if_pos hlen]
            have hbody : randFree fn.body = true :=
              hst (fname, fn) (lookupStr_mem hfn)
            rw [ih st (fn.params.zip pv.1) fn.body rng ctr hst hbody]
            rw [ih st (fn.params.zip pv.1) fn.body (fun _ => 0) pv.2 hst
              hbody]
            cases eval b f st (fn.params.zip pv.1) (fun _ => 0) 0 fn.body <;>
              rfl
          · rw [if_neg hlen, if_neg hlen]
            rfl
        | none =>
          cases b fname <;> rfl

/-- C6 (amended): for a function environment created by
createConfiguredMathParser from NamedFunctions whose bodies never invoke the
random builtin, and any random-free expression, two evaluations under the
same bindings yield the same value regardless of the hidden stream state. -/
theorem evaluation_deterministic (b : String → Option (List ℚ → ℚ))
    (fuel : ℕ) (functions : List (String × FnDef)) (rngB : ℕ → ℚ) (ctrB : ℕ)
    (hfns : ∀ p ∈ functions, randFree p.2.body = true)
    (binds : List (String × ℚ)) (e : Expr) (he : randFree e = true)
    (rng1 : ℕ → ℚ) (ctr1 : ℕ) (rng2 : ℕ → ℚ) (ctr2 : ℕ) :
    (eval b fuel ((createConfiguredMathParser b fuel functions rngB ctrB).1)
        binds rng1 ctr1 e).map Prod.fst =
    (eval b fuel ((createConfiguredMathParser b fuel functions rngB ctrB).1)
        binds rng2 ctr2 e).map Prod.fst := by
  have hst : ∀ p ∈ (createConfiguredMathParser b fuel functions rngB
      ctrB).1.fns, randFree p.2.body = true :=
    fun p hp => hfns p
      (createConfiguredMathParser_fns_sub b fuel functions rngB ctrB p hp)
  rw [eval_stream_indep b fuel _ binds e rng1 ctr1 hst he,
    eval_stream_indep b fuel _ binds e rng2 ctr2 hst he]
  cases eval b fuel ((createConfiguredMathParser b fuel functions rngB
      ctrB).1) binds (fun _ => 0) 0 e <;> rfl

/-- An empty pure-builtin library. -/
def noBuiltins : String → Option (List ℚ → ℚ) := fun _ => none

/-- A concrete stream of pseudo-random draws. -/
def rngSeq : ℕ → ℚ := fun n => if n = 0 then 0 else 1/2

/-- Counterexample to C6 as stated: a NamedFunction whose body invokes the
aliased random builtin (`DEF FNR(x) = RAND()`) is bound by
createConfiguredMathParser, yet two successive evaluations at the same input
under the same bindings return different values (the hidden PRNG stream
advanced). -/
theorem eval_rand_counterexample :
    (eval noBuiltins 10
        ((createConfiguredMathParser noBuiltins 10
            [("FNR", ⟨["x"], .call "RAND" []⟩)] rngSeq 0).1)
        [] rngSeq 0 (.call "FNR" [.num 0])).map Prod.fst = some 0 ∧
    (eval noBuiltins 10
        ((createConfiguredMathParser noBuiltins 10
            [("FNR", ⟨["x"], .call "RAND" []⟩)] rngSeq 0).1)
        [] rngSeq 1 (.call "FNR" [.num 0])).map Prod.fst = some (1/2) ∧
    (0 : ℚ) ≠ 1/2 :=
  ⟨rfl, rfl, by norm_num⟩

/-- Witness for the amended C6 at a concrete random-free function list and
expression. -/
theorem evaluation_deterministic_witness :
    (∀ p ∈ [("FNA", (⟨["x"], .var "x"⟩ : FnDef))], randFree p.2.body = true) ∧
    randFree (.call "FNA" [.num 2]) = true ∧
    (eval noBuiltins 9
        ((createConfiguredMathParser noBuiltins 9
            [("FNA", ⟨["x"], .var "x"⟩)] rngSeq 0).1)
        [] rngSeq 5 (.call "FNA" [.num 2])).map Prod.fst =
      (eval noBuiltins 9
        ((createConfiguredMathParser noBuiltins 9
            [("FNA", ⟨["x"], .var "x"⟩)] rngSeq 0).1)
        [] (fun _ => 7) 0 (.call "FNA" [.num 2])).map Prod.fst :=
  ⟨by intro p hp; rcases List.mem_singleton.mp hp with rfl; rfl,
    rfl,
    evaluation_deterministic noBuiltins 9 [("FNA", ⟨["x"], .var "x"⟩)]
      rngSeq 0 (by intro p hp; rcases List.mem_singleton.mp hp with rfl; rfl)
      [] (.call "FNA" [.num 2]) rfl rngSeq 5 (fun _ => 7) 0⟩

end Evaluator

/-! ## G3D Parser / Validator (source file part_015, `parseG3D`)

The parser is modelled over `List Char`.  Each regular-expression statement
matcher of the source is transcribed as a scanning function; for every
quantified sub-pattern the character class is disjoint from what follows, so
greedy matching needs no backtracking, except for the LABEL text (greedy,
rightmost AT) and the ANIMATE bounds (lazy, leftmost TO/STEP), which are
implemented by explicit rightmost / leftmost splitting.  `parseFloat` is
modelled for sign-digits-dot inputs (the character class `[-\d.]` of the
RANGE and ANIMATE patterns admits no exponent); exponent notation and the
literal Infinity, reachable only through CONTOUR level strings, are not
modelled.  mathjs evaluation of ANIMATE bounds is an oracle parameter. -/

namespace Parser

abbrev Str := List Char

def isWS (c : Char) : Bool :=
  c = ' ' || c = '\t' || c = '\r' || c = '\n' || c = '\x0c' || c = '\x0b'

/-- JavaScript `String.prototype.trim`. -/
def trimList (s : Str) : Str :=
  ((s.dropWhile isWS).reverse.dropWhile isWS).reverse

/-- Case-insensitive equality of character lists. -/
def ciEq (a b : Str) : Bool := a.map Char.toUpper == b.map Char.toUpper

/-- Matches a literal word case-insensitively, returning the rest. -/
def matchCI : Str → Str → Option Str
  | [], s => some s
  | k :: ks, c :: cs => if c.toUpper = k.toUpper then matchCI ks cs else none
  | _ :: _, [] => none

/-- `\s+`: at least one whitespace character, maximal munch. -/
def skipWS1 : Str → Option Str
  | c :: rest => if isWS c then some (rest.dropWhile isWS) else none
  | [] => none

/-- `(cls)+`: maximal nonempty run of a character class. -/
def takeClass1 (p : Char → Bool) (s : Str) : Option (Str × Str) :=
  let tk := s.takeWhile p
  if tk.isEmpty then none else some (tk, s.drop tk.length)

def isNumChar (c : Char) : Bool := c = '-' || c = '.' || c.isDigit

def isWordChar (c : Char) : Bool := c.isAlphanum || c = '_'

/-- `/^SET\s+RANGE\s+([XYZ])\s+([-\d.]+)\s+TO\s+([-\d.]+)/i` (line 83);
returns the axis letter (upper-cased) and the two bound captures. -/
def matchRange (line : Str) : Option (Char × Str × Str) := do
  let s1 ← matchCI "SET".data line
  let s2 ← skipWS1 s1
  let s3 ← matchCI "RANGE".data s2
  let s4 ← skipWS1 s3
  match s4 with
  | c :: s5 =>
    if c.toUpper = 'X' || c.toUpper = 'Y' || c.toUpper = 'Z' then do
      let s6 ← skipWS1 s5
      let (b1, s7) ← takeClass1 isNumChar s6
      let s8 ← skipWS1 s7
      let s9 ← matchCI "TO".data s8
      let s10 ← skipWS1 s9
      let (b2, _) ← takeClass1 isNumChar s10
      some (c.toUpper, b1, b2)
    else none
  | [] => none

/-- `/^COLOR\s+MAP\s+(\w+)/i` (line 99). -/
def matchColorMap (line : Str) : Option Str := do
  let s1 ← matchCI "COLOR".data line
  let s2 ← skipWS1 s1
  let s3 ← matchCI "MAP".data s2
  let s4 ← skipWS1 s3
  let (w, _) ← takeClass1 isWordChar s4
  some w

/-- `/^PARTICLES\s+(\d+)/i` (line 114). -/
def matchParticles (line : Str) : Option Str := do
  let s1 ← matchCI "PARTICLES".data line
  let s2 ← skipWS1 s1
  let (d, _) ← takeClass1 Char.isDigit s2
  some d

/-- `/^CONTOUR\s+LEVELS\s+(.*)/i` (line 132). -/
def matchContour (line : Str) : Option Str := do
  let s1 ← matchCI "CONTOUR".data line
  let s2 ← skipWS1 s1
  let s3 ← matchCI "LEVELS".data s2
  let s4 ← skipWS1 s3
  some s4

/-- The tail `\s+AT\s+([^,]+)\s*,\s*([^,]+)\s*,\s*(.*)` of the LABEL
pattern. -/
def matchATTail (s : Str) : Option (Str × Str × Str) := do
  let s1 ← skipWS1 s
  let s2 ← matchCI "AT".data s1
  let s3 ← skipWS1 s2
  let x := s3.takeWhile (fun c => c ≠ ',')
  if x.isEmpty then none
  else
    match s3.drop x.length with
    | ',' :: s4 =>
      let y := s4.takeWhile (fun c => c ≠ ',')
      if y.isEmpty then none
      else
        match s4.drop y.length with
        | ',' :: s5 => some (x, y, s5)
        | _ => none
    | _ => none

/-- `/^LABEL\s+(.+)\s+AT\s+([^,]+)\s*,\s*([^,]+)\s*,\s*(.*)/i` (line 150):
the greedy `(.+)` selects the rightmost viable AT separator. -/
def matchLabel (line : Str) : Option (Str × Str × Str × Str) := do
  let s1 ← matchCI "LABEL".data line
  let s2 ← skipWS1 s1
  (List.range s2.length).foldl
    (fun best i =>
      match matchATTail (s2.drop (i + 1)) with
      | some (x, y, z) => some (s2.take (i + 1), x, y, z)
      | none => best)
    none

/-- `/^DEF\s+([^=()]+?)\s*=\s*(.*)/i` together with the guard that no `(`
occurs before the first `=` (lines 164-165).  Returns the raw name capture
(first whitespace included) and the raw text after `=`. -/
def matchDefConst (line : Str) : Option (Str × Str) := do
  let s1 ← matchCI "DEF".data line
  match s1 with
  | c :: rest =>
    if isWS c then
      let chunk := (c :: rest : Str)
      let pre := chunk.takeWhile (fun ch => ch ≠ '=')
      if chunk.drop pre.length = [] then none
      else if pre.any (fun ch => ch = '(' || ch = ')') then none
      else if 2 ≤ pre.length then some (pre, chunk.drop (pre.length + 1))
      else none
    else none
  | [] => none

/-- `/^DEF\s+(PRE\w+)\s*\(([^)]*)\)\s*=\s*(.*)/i` for a required
case-insensitive name prefix PRE (the VEC_, TENSOR_ and FN matchers of lines
191, 207, 223).  Returns the name as typed, the raw parameter text, and the
raw text after `=`. -/
def matchDefFnLike (pre : Str) (line : Str) : Option (Str × Str × Str) := do
  let s1 ← matchCI "DEF".data line
  let s2 ← skipWS1 s1
  let nameAll := s2.takeWhile isWordChar
  if nameAll.length < pre.length + 1 then none
  else if ¬ ciEq (nameAll.take pre.length) pre then none
  else
    let s3 := s2.drop nameAll.length
    match s3.dropWhile isWS with
    | '(' :: s5 =>
      let ps := s5.takeWhile (fun c => c ≠ ')')
      match s5.drop ps.length with
      | ')' :: s6 =>
        match s6.dropWhile isWS with
        | '=' :: s8 => some (nameAll, ps, s8)
        | _ => none
      | _ => none
    | _ => none

/-- `/^PLOT3D\s+(.*)/i` (line 236). -/
def matchPlot3D (line : Str) : Option Str := do
  let s1 ← matchCI "PLOT3D".data line
  let s2 ← skipWS1 s1
  some s2

/-- `/^PLOT_VECFIELD\s+(\w+)/i` (line 248). -/
def matchPlotVecField (line : Str) : Option Str := do
  let s1 ← matchCI "PLOT_VECFIELD".data line
  let s2 ← skipWS1 s1
  let (w, _) ← takeClass1 isWordChar s2
  some w

/-- `/^PLOT_TENSOR\s+(\w+)\s+AS\s+GLYPH\s+'(ELLIPSOID)'/i` (line 257). -/
def matchPlotTensor (line : Str) : Option Str := do
  let s1 ← matchCI "PLOT_TENSOR".data line
  let s2 ← skipWS1 s1
  let (nm, s3) ← takeClass1 isWordChar s2
  let s4 ← skipWS1 s3
  let s5 ← matchCI "AS".data s4
  let s6 ← skipWS1 s5
  let s7 ← matchCI "GLYPH".data s6
  let s8 ← skipWS1 s7
  match s8 with
  | '\'' :: s9 =>
    match matchCI "ELLIPSOID".data s9 with
    | some ('\'' :: _) => some nm
    | _ => none
  | _ => none

/-- Leftmost split: the shortest nonempty prefix whose remainder matches
`next` (the lazy `(.+?)` of the ANIMATE pattern). -/
def firstSplitAux {α : Type} (next : Str → Option α) :
    Str → Str → Option (Str × α)
  | _, [] => none
  | pre, c :: rest =>
    match next rest with
    | some a => some (pre ++ [c], a)
    | none => firstSplitAux next (pre ++ [c]) rest

def firstSplit {α : Type} (next : Str → Option α) (s : Str) :
    Option (Str × α) :=
  firstSplitAux next [] s

/-- `/^ANIMATE\s+(\w+)\s+FROM\s+(.+?)\s+TO\s+(.+?)\s+STEP\s+(.+)/i`
(line 267). -/
def matchAnimate (line : Str) : Option (Str × Str × Str × Str) := do
  let s1 ← matchCI "ANIMATE".data line
  let s2 ← skipWS1 s1
  let (param, s3) ← takeClass1 isWordChar s2
  let s4 ← skipWS1 s3
  let s5 ← matchCI "FROM".data s4
  let s6 ← skipWS1 s5
  let (fromE, toStep) ← firstSplit (fun suf => do
      let t1 ← skipWS1 suf
      let t2 ← matchCI "TO".data t1
      let t3 ← skipWS1 t2
      firstSplit (fun suf2 => do
          let u1 ← skipWS1 suf2
          let u2 ← matchCI "STEP".data u1
          let u3 ← skipWS1 u2
          if u3.isEmpty then none else some u3) t3) s6
  some (param, fromE, toStep.1, toStep.2)

def digitsToNat (s : Str) : ℕ :=
  s.foldl (fun n c => n * 10 + (c.toNat - 48)) 0

/-- JavaScript `parseFloat` on sign-digits-dot text: optional sign, then
digits with an optional fractional part; at least one digit is required;
trailing garbage is ignored; `none` is NaN. -/
def parseFloatQ (s : Str) : Option ℚ :=
  let signed := match s with
    | '-' :: r => (true, r)
    | '+' :: r => (false, r)
    | _ => (false, s)
  let ip := signed.2.takeWhile Char.isDigit
  let s2 := signed.2.drop ip.length
  let fp := match s2 with
    | '.' :: r => r.takeWhile Char.isDigit
    | _ => ([] : Str)
  if ip.isEmpty && fp.isEmpty then none
  else
    let v : ℚ := (digitsToNat ip : ℚ) +
      (digitsToNat fp : ℚ) / ((10 : ℚ) ^ fp.length)
    some (if signed.1 then -v else v)

/-- The CONTOUR levels computation (line 138): split on commas, parse each
trimmed piece, keep the numbers. -/
def parseLevels (s : Str) : List ℚ :=
  ((s.splitOn ',').map (fun t => parseFloatQ (trimList t))).filterMap id

/-- A `G3DFunction` (types.ts): parameter names and body text. -/
structure G3DFunctionS where
  params : List Str
  body : Str
deriving DecidableEq, Repr

inductive PlotS where
  | surface (expr : Str)
  | vector (fnName : Str)
  | tensor (fnName : Str) (glyphType : Str)
deriving DecidableEq, Repr

structure LabelS where
  textExpr : Str
  positionExpr : Str × Str × Str
deriving DecidableEq, Repr

structure AnimationS where
  parameter : Str
  fromV : JSNum
  toV : JSNum
  stepV : JSNum
deriving DecidableEq, Repr

/-- The `GraphIR` aggregate (types.ts lines 80-94). -/
structure GraphIRS where
  version : ℕ
  xRange : RangeQ
  yRange : RangeQ
  zRange : RangeQ
  functions : List (Str × G3DFunctionS)
  plots : List PlotS
  labels : List LabelS
  colorMap : Str
  animation : Option AnimationS
  contours : Option (List ℚ)
  particles : Option ℕ
deriving DecidableEq, Repr

inductive ErrKind where
  | invalidRangeNumber
  | rangeMinNotLtMax
  | multipleColorMap
  | invalidColorMap
  | multipleParticles
  | invalidParticleCount
  | particleLimitExceeded
  | multipleContour
  | noContourLevels
  | constNamePrefix
  | emptyConstBody
  | duplicateDefinition
  | vecBodyNotBracketed
  | tensorBodyNotBracketed
  | emptyFnBody
  | emptyPlotExpr
  | multipleAnimate
  | invalidAnimationParams
  | animationNotNumber
  | stepNotPositive
  | unknownStatement
  | noPlotStatement
deriving DecidableEq, Repr

/-- A parse error: the 1-based line number it carries (`none` only for the
final no-plot error, which the source throws without one) and the
condition. -/
structure G3DError where
  lineNumber : Option ℕ
  kind : ErrKind
deriving DecidableEq, Repr

/-- The parser's running state: the IR under construction and the
found-flags of lines 74-77. -/
structure PState where
  ir : GraphIRS
  animationFound : Bool
  colorMapFound : Bool
  contourFound : Bool
  particlesFound : Bool
deriving DecidableEq, Repr

def lookupAssoc {α : Type} (l : List (Str × α)) (k : Str) : Option α :=
  (l.find? (fun p => p.1 == k)).map (fun p => p.2)

/-- JavaScript object-key assignment: replace in place when present,
append otherwise. -/
def setAssoc {α : Type} (l : List (Str × α)) (k : Str) (v : α) :
    List (Str × α) :=
  if (l.find? (fun p => p.1 == k)).isSome then
    l.map (fun p => if p.1 == k then (k, v) else p)
  else l ++ [(k, v)]

def VALID_COLOR_MAPS : List Str :=
  ["viridis", "plasma", "inferno", "magma", "hot", "cool",
    "default"].map String.data

def MAX_PARTICLES : ℕ := 5000

/-- The statement classification produced by the matcher cascade, in the
source's priority order. -/
inductive Stmt where
  | range (axis : Char) (b1 b2 : Str)
  | colorMap (w : Str)
  | particles (digits : Str)
  | contour (rest : Str)
  | label (t x y z : Str)
  | defConst (preName bodyRaw : Str)
  | defVec (name ps bodyRaw : Str)
  | defTensor (name ps bodyRaw : Str)
  | defFn (name ps bodyRaw : Str)
  | plot3d (rest : Str)
  | plotVecField (nm : Str)
  | plotTensor (nm : Str)
  | animate (param fromT toT stepT : Str)
  | unknown
deriving DecidableEq, Repr

/-- First match wins, in the order the matchers appear in the source
(lines 83-298). -/
def classify (line : Str) : Stmt :=
  if let some (axis, b1, b2) := matchRange line then .range axis b1 b2
  else if let some w := matchColorMap line then .colorMap w
  else if let some d := matchParticles line then .particles d
  else if let some r := matchContour line then .contour r
  else if let some (t, x, y, z) := matchLabel line then .label t x y z
  else if let some (pre, raw) := matchDefConst line then .defConst pre raw
  else if let some (n, ps, raw) := matchDefFnLike "VEC_".data line then
    .defVec n ps raw
  else if let some (n, ps, raw) := matchDefFnLike "TENSOR_".data line then
    .defTensor n ps raw
  else if let some (n, ps, raw) := matchDefFnLike "FN".data line then
    .defFn n ps raw
  else if let some r := matchPlot3D line then .plot3d r
  else if let some w := matchPlotVecField line then .plotVecField w
  else if let some w := matchPlotTensor line then .plotTensor w
  else if let some (p, f, t, st) := matchAnimate line then .animate p f t st
  else .unknown

/-- The model of `createConfiguredMathParser(...).evaluate` used by the
ANIMATE handler: given the functions defined so far and the bound text,
either a JS number or `none` for a thrown evaluation error. -/
abbrev AnimOracle := List (Str × G3DFunctionS) → Str → Option JSNum

/-- JavaScript `step <= 0` for the checked step value (NaN was already
rejected). -/
def jsLeZero : JSNum → Bool
  | .num q => decide (q ≤ 0)
  | .ninf => true
  | .inf => false
  | .nan => false

/-- Splitting of parameter lists: `split(',').map(trim).filter(nonempty)`
(line 226 and analogues). -/
def splitParams (ps : Str) : List Str :=
  ((ps.splitOn ',').map trimList).filter (fun p => !p.isEmpty)

/-- The constant name computation `match[1].trim().replace(/\s+/g, '')`
(line 166). -/
def constName (pre : Str) : Str := pre.filter (fun c => !isWS c)

/-- The relaxed prefix check of line 168: the upper-cased name must start
with FN, VEC or TENSOR. -/
def hasConstPrefix (name : Str) : Bool :=
  let nameU := name.map Char.toUpper
  nameU.take 2 == "FN".data || nameU.take 3 == "VEC".data ||
    nameU.take 6 == "TENSOR".data

/-- One statement handler (the body of the `forEach` of lines 79-299). -/
def processStmt (oracle : AnimOracle) (st : PState) (lineNumber : ℕ) :
    Stmt → Except G3DError PState
  | .range axis b1 b2 =>
    match parseFloatQ b1, parseFloatQ b2 with
    | some mn, some mx =>
      if mx ≤ mn then .error ⟨some lineNumber, .rangeMinNotLtMax⟩
      else if axis = 'X' then
        .ok { st with ir := { st.ir with xRange := ⟨mn, mx⟩ } }
      else if axis = 'Y' then
        .ok { st with ir := { st.ir with yRange := ⟨mn, mx⟩ } }
      else
        .ok { st with ir := { st.ir with zRange := ⟨mn, mx⟩ } }
    | _, _ => .error ⟨some lineNumber, .invalidRangeNumber⟩
  | .colorMap w =>
    if st.colorMapFound then .error ⟨some lineNumber, .multipleColorMap⟩
    else
      let mapName := w.map Char.toLower
      if VALID_COLOR_MAPS.all (fun v => ¬ v == mapName) then
        .error ⟨some lineNumber, .invalidColorMap⟩
      else
        .ok { st with
          ir := { st.ir with colorMap := mapName },
          colorMapFound := true }
  | .particles d =>
    if st.particlesFound then .error ⟨some lineNumber, .multipleParticles⟩
    else
      let count := digitsToNat d
      if count = 0 then .error ⟨some lineNumber, .invalidParticleCount⟩
      else if MAX_PARTICLES < count then
        .error ⟨some lineNumber, .particleLimitExceeded⟩
      else
        .ok { st with
          ir := { st.ir with particles := some count },
          particlesFound := true }
  | .contour r =>
    if st.contourFound then .error ⟨some lineNumber, .multipleContour⟩
    else
      let levels := parseLevels r
      if levels.isEmpty then .error ⟨some lineNumber, .noContourLevels⟩
      else
        .ok { st with
          ir := { st.ir with contours := some levels },
          contourFound := true }
  | .label t x y z =>
    .ok { st with ir := { st.ir with labels := st.ir.labels ++
      [⟨trimList t, (trimList x, trimList y, trimList z)⟩] } }
  | .defConst pre raw =>
    let name := constName pre
    if ¬ hasConstPrefix name then
      .error ⟨some lineNumber, .constNamePrefix⟩
    else
      let body := trimList raw
      if body.isEmpty then .error ⟨some lineNumber, .emptyConstBody⟩
      else if (lookupAssoc st.ir.functions name).isSome then
        .error ⟨some lineNumber, .duplicateDefinition⟩
      else
        .ok { st with ir := { st.ir with
          functions := setAssoc st.ir.functions name ⟨[], body⟩ } }
  | .defVec name ps raw =>
    let params := splitParams ps
    let body := trimList raw
    if ¬ (body.head? = some '[' ∧ body.getLast? = some ']') then
      .error ⟨some lineNumber, .vecBodyNotBracketed⟩
    else if (lookupAssoc st.ir.functions name).isSome then
      .error ⟨some lineNumber, .duplicateDefinition⟩
    else
      .ok { st with ir := { st.ir with
        functions := setAssoc st.ir.functions name ⟨params, body⟩ } }
  | .defTensor name ps raw =>
    let params := splitParams ps
    let body := trimList raw
    if ¬ (body.take 2 = "[[".data ∧ body.reverse.take 2 = "]]".data) then
      .error ⟨some lineNumber, .tensorBodyNotBracketed⟩
    else if (lookupAssoc st.ir.functions name).isSome then
      .error ⟨some lineNumber, .duplicateDefinition⟩
    else
      .ok { st with ir := { st.ir with
        functions := setAssoc st.ir.functions name ⟨params, body⟩ } }
  | .defFn name ps raw =>
    let params := splitParams ps
    let body := trimList raw
    if body.isEmpty then .error ⟨some lineNumber, .emptyFnBody⟩
    else
      .ok { st with ir := { st.ir with
        functions := setAssoc st.ir.functions name ⟨params, body⟩ } }
  | .plot3d r =>
    let expr := trimList r
    if expr.isEmpty then .error ⟨some lineNumber, .emptyPlotExpr⟩
    else
      .ok { st with ir := { st.ir with
        plots := st.ir.plots ++ [.surface expr] } }
  | .plotVecField nm =>
    .ok { st with ir := { st.ir with
      plots := st.ir.plots ++ [.vector nm] } }
  | .plotTensor nm =>
    .ok { st with ir := { st.ir with
      plots := st.ir.plots ++ [.tensor nm ("ELLIPSOID".data)] } }
  | .animate param fromT toT stepT =>
    if st.animationFound then .error ⟨some lineNumber, .multipleAnimate⟩
    else
      match oracle st.ir.functions fromT, oracle st.ir.functions toT,
        oracle st.ir.functions stepT with
      | some fv, some tv, some sv =>
        if fv = .nan ∨ tv = .nan ∨ sv = .nan then
          .error ⟨some lineNumber, .animationNotNumber⟩
        else if jsLeZero sv then
          .error ⟨some lineNumber, .stepNotPositive⟩
        else
          .ok { st with
            ir := { st.ir with animation := some ⟨param, fv, tv, sv⟩ },
            animationFound := true }
      | _, _, _ => .error ⟨some lineNumber, .invalidAnimationParams⟩
  | .unknown => .error ⟨some lineNumber, .unknownStatement⟩

/-- Step 1 preprocessing (lines 8-26): strip comments, trim, join
backslash-continued lines; blank lines neither emit nor flush the buffer. -/
def step1 : List Str → Str → List Str
  | [], buf => if buf.isEmpty then [] else [buf]
  | l :: rest, buf =>
    let t := trimList (l.takeWhile (fun c => c ≠ '#'))
    if t.isEmpty then step1 rest buf
    else
      let buf2 := if buf.isEmpty then t else buf ++ [' '] ++ t
      if buf2.getLast? = some '\\' then step1 rest buf2.dropLast
      else buf2 :: step1 rest []

/-- `/^DEF\s/i`. -/
def isDefStart (l : Str) : Bool :=
  ciEq (l.take 3) "DEF".data &&
    (match l.drop 3 with
      | c :: _ => isWS c
      | [] => false)

def kwList : List Str :=
  ["SET", "COLOR", "PLOT3D", "PLOT_VECFIELD", "PLOT_TENSOR", "ANIMATE",
    "PARTICLES", "CONTOUR", "LABEL"].map String.data

/-- The `keywordsRegex` of line 31. -/
def startsKeyword (l : Str) : Bool :=
  kwList.any (fun kw =>
    ciEq (l.take kw.length) kw &&
      (match l.drop kw.length with
        | c :: _ => isWS c
        | [] => false))

/-- Step 2 preprocessing (lines 28-57): merge wrapped multi-line DEF
statements; continuation lines are concatenated without a separating
space. -/
def step2 : List Str → Str → List Str
  | [], defBuf => if defBuf.isEmpty then [] else [defBuf]
  | l :: rest, defBuf =>
    if isDefStart l then
      (if defBuf.isEmpty then [] else [defBuf]) ++ step2 rest l
    else if ¬ defBuf.isEmpty ∧ ¬ startsKeyword l then
      step2 rest (defBuf ++ l)
    else
      (if defBuf.isEmpty then [] else [defBuf]) ++ (l :: step2 rest [])

def preprocess (code : Str) : List Str :=
  (step2 (step1 (code.splitOn '\n') []) []).filter (fun l => !l.isEmpty)

/-- The initial IR of lines 61-72. -/
def initIR : GraphIRS :=
  { version := 1,
    xRange := ⟨-1, 1⟩, yRange := ⟨-1, 1⟩, zRange := ⟨-1, 1⟩,
    functions := [], plots := [], labels := [],
    colorMap := "default".data,
    animation := none, contours := none, particles := none }

def initState : PState := ⟨initIR, false, false, false, false⟩

/-- The `forEach` over the processed logical lines, carrying 1-based line
numbers; a handler error aborts the parse. -/
def processAll (oracle : AnimOracle) :
    List Str → ℕ → PState → Except G3DError PState
  | [], _, st => .ok st
  | l :: rest, n, st => do
    let st2 ← processStmt oracle st n (classify l)
    processAll oracle rest (n + 1) st2

def PlotS.isSurface : PlotS → Bool
  | .surface _ => true
  | _ => false

def PlotS.isVecOrTensor : PlotS → Bool
  | .vector _ => true
  | .tensor _ _ => true
  | _ => false

/-- The final surface-plot completion (lines 301-309): synthesize a flat
surface `0` in front when only vector/tensor plots exist, fail without a
line number when there are no plots at all. -/
def finalizePlots (ir : GraphIRS) : Except G3DError GraphIRS :=
  if ir.plots.any PlotS.isSurface then .ok ir
  else if ir.plots.any PlotS.isVecOrTensor then
    .ok { ir with plots := .surface "0".data :: ir.plots }
  else .error ⟨none, .noPlotStatement⟩

/-- `parseG3D` (part_015): preprocess, dispatch each logical line, then
complete the plot sequence. -/
def parseG3D (oracle : AnimOracle) (code : Str) : Except G3DError GraphIRS := do
  let stF ← processAll oracle (preprocess code) 1 initState
  finalizePlots stF.ir

/-- All three ranges of the state satisfy min < max. -/
def RangesOK (st : PState) : Prop :=
  st.ir.xRange.min < st.ir.xRange.max ∧ st.ir.yRange.min < st.ir.yRange.max ∧
    st.ir.zRange.min < st.ir.zRange.max

theorem processStmt_ranges (oracle : AnimOracle) (st : PState) (n : ℕ)
    (s : Stmt) (st2 : PState) (h : processStmt oracle st n s = .ok st2)
    (hin : RangesOK st) : RangesOK st2 := by
  cases s <;> simp only [processStmt] at h <;> (repeat' split at h) <;>
    (try exact Except.noConfusion h) <;>
    (injection h with h2) <;> (subst h2) <;>
    (first
      | exact hin
      | (refine ⟨?_, ?_, ?_⟩ <;>
          first
            | exact hin.1
            | exact hin.2.1
            | exact hin.2.2
            | exact not_le.mp (by assumption)))

theorem processAll_ranges (oracle : AnimOracle) :
    ∀ (ls : List Str) (n : ℕ) (st st2 : PState),
      processAll oracle ls n st = .ok st2 → RangesOK st → RangesOK st2 := by
  intro ls
  induction ls with
  | nil =>
    intro n st st2 h hin
    simp only [processAll] at h
    injection h with h2
    subst h2
    exact hin
  | cons l rest ih =>
    intro n st st2 h hin
    simp only [processAll] at h
    cases hst : processStmt oracle st n (classify l) with
    | error e =>
      rw [hst] at h
      simp only [bind, Except.bind] at h
      exact Except.noConfusion h
    | ok stm =>
      rw [hst] at h
      simp only [bind, Except.bind] at h
      exact ih (n + 1) stm st2 h
        (processStmt_ranges oracle st n (classify l) stm hst hin)

theorem parseG3D_ok_split (oracle : AnimOracle) (code : Str) (ir : GraphIRS)
    (h : parseG3D oracle code = .ok ir) :
    ∃ stF, processAll oracle (preprocess code) 1 initState = .ok stF ∧
      finalizePlots stF.ir = .ok ir := by
  simp only [parseG3D] at h
  cases hp : processAll oracle (preprocess code) 1 initState with
  | error e =>
    rw [hp] at h
    simp only [bind, Except.bind] at h
    exact Except.noConfusion h
  | ok stF =>
    rw [hp] at h
    simp only [bind, Except.bind] at h
    exact ⟨stF, rfl, h⟩

theorem finalizePlots_ranges (ir ir2 : GraphIRS)
    (h : finalizePlots ir = .ok ir2) :
    ir2.xRange = ir.xRange ∧ ir2.yRange = ir.yRange ∧
      ir2.zRange = ir.zRange := by
  simp only [finalizePlots] at h
  split at h
  · injection h with h2; subst h2; exact ⟨rfl, rfl, rfl⟩
  · split at h
    · injection h with h2; subst h2; exact ⟨rfl, rfl, rfl⟩
    · exact Except.noConfusion h

theorem initState_RangesOK : RangesOK initState := by
  refine ⟨?_, ?_, ?_⟩ <;> norm_num [initState, initIR]

/-- C3: every SET RANGE statement whose bounds parse as numbers is rejected
with a line-numbered error when min >= max (bounds are never swapped), and
when min < max the pair {min, max} is stored unchanged for exactly the named
axis; consequently every range of a successfully parsed IR has
min < max. -/
theorem range_min_lt_max :
    (∀ (oracle : AnimOracle) (code : Str) (ir : GraphIRS),
        parseG3D oracle code = .ok ir →
        ir.xRange.min < ir.xRange.max ∧ ir.yRange.min < ir.yRange.max ∧
          ir.zRange.min < ir.zRange.max) ∧
    (∀ (oracle : AnimOracle) (st : PState) (n : ℕ) (axis : Char)
        (b1 b2 : Str) (mn mx : ℚ),
        parseFloatQ b1 = some mn → parseFloatQ b2 = some mx →
        (mx ≤ mn →
          processStmt oracle st n (.range axis b1 b2) =
            .error ⟨some n, .rangeMinNotLtMax⟩) ∧
        (mn < mx → ∃ st2,
          processStmt oracle st n (.range axis b1 b2) = .ok st2 ∧
          st2.ir.functions = st.ir.functions ∧
          st2.ir.plots = st.ir.plots ∧
          (axis = 'X' → st2.ir.xRange = ⟨mn, mx⟩ ∧
            st2.ir.yRange = st.ir.yRange ∧ st2.ir.zRange = st.ir.zRange) ∧
          (axis = 'Y' → st2.ir.yRange = ⟨mn, mx⟩ ∧
            st2.ir.xRange = st.ir.xRange ∧ st2.ir.zRange = st.ir.zRange) ∧
          (axis ≠ 'X' → axis ≠ 'Y' → st2.ir.zRange = ⟨mn, mx⟩ ∧
            st2.ir.xRange = st.ir.xRange ∧ st2.ir.yRange = st.ir.yRange))) := by
  constructor
  · intro oracle code ir h
    obtain ⟨stF, hp, hf⟩ := parseG3D_ok_split oracle code ir h
    have h1 : RangesOK stF :=
      processAll_ranges oracle (preprocess code) 1 initState stF hp
        initState_RangesOK
    obtain ⟨hx, hy, hz⟩ := finalizePlots_ranges stF.ir ir hf
    rw [hx, hy, hz]
    exact h1
  · intro oracle st n axis b1 b2 mn mx hb1 hb2
    constructor
    · intro hle
      simp only [processStmt, hb1, hb2, if_pos hle]
    · intro hlt
      have hnle : ¬ mx ≤ mn := not_le.mpr hlt
      by_cases hX : axis = 'X'
      · subst hX
        refine ⟨{ st with ir := { st.ir with xRange := ⟨mn, mx⟩ } },
          ?_, rfl, rfl, ?_, ?_, ?_⟩
        · simp [processStmt, hb1, hb2, hnle]
        · intro _; exact ⟨rfl, rfl, rfl⟩
        · intro hY; exact absurd hY (by decide)
        · intro hX' _; exact absurd rfl hX'
      · by_cases hY : axis = 'Y'
        · subst hY
          refine ⟨{ st with ir := { st.ir with yRange := ⟨mn, mx⟩ } },
            ?_, rfl, rfl, ?_, ?_, ?_⟩
          · simp [processStmt, hb1, hb2, hnle, hX]
          · intro hXe; exact absurd hXe hX
          · intro _; exact ⟨rfl, rfl, rfl⟩
          · intro _ hY'; exact absurd rfl hY'
        · refine ⟨{ st with ir := { st.ir with zRange := ⟨mn, mx⟩ } },
            ?_, rfl, rfl, ?_, ?_, ?_⟩
          · simp [processStmt, hb1, hb2, hnle, hX, hY]
          · intro hXe; exact absurd hXe hX
          · intro hYe; exact absurd hYe hY
          · intro _ _; exact ⟨rfl, rfl, rfl⟩

theorem range_min_lt_max_witness :
    processStmt (fun _ _ => none) initState 1
      (.range 'X' "5".data "2".data) = .error ⟨some 1, .rangeMinNotLtMax⟩ :=
  ((range_min_lt_max.2 (fun _ _ => none) initState 1 'X' "5".data "2".data
      (((5 : ℕ) : ℚ) + ((0 : ℕ) : ℚ) / (10 : ℚ) ^ (0 : ℕ))
      (((2 : ℕ) : ℚ) + ((0 : ℕ) : ℚ) / (10 : ℚ) ^ (0 : ℕ))
      rfl rfl).1 (by norm_num))

/-- A program whose two scalar DEF FN statements bind the same name. -/
def dupProg : Str :=
  ("DEF FNA(x) = 1\nDEF FNA(x) = 2\nPLOT3D FNA(x)").data

/-- The IR the parser produces for `dupProg`. -/
def dupIR : GraphIRS :=
  { initIR with
    functions := [("FNA".data, ⟨["x".data], "2".data⟩)],
    plots := [.surface "FNA(x)".data] }

/-- A program containing two DEF statements that bind the name FNA is not
rejected: it parses successfully and the later body silently replaces the
earlier one in the function mapping. -/
theorem duplicate_fn_counterexample :
    parseG3D (fun _ _ => none) dupProg = .ok dupIR ∧
      lookupAssoc dupIR.functions "FNA".data =
        some ⟨["x".data], "2".data⟩ := by
  constructor <;> rfl

/-- C4 (amended): a DEF statement that redefines an existing name is
rejected with a line-numbered duplicate-definition error on the constant,
vector-function and tensor-function paths, but the scalar-function path
`DEF FN...(...) = body` performs no duplicate check and silently replaces
any existing definition of the same name. -/
theorem duplicate_definition_policy :
    (∀ (oracle : AnimOracle) (st : PState) (n : ℕ) (pre raw : Str),
        hasConstPrefix (constName pre) = true →
        (trimList raw).isEmpty = false →
        (lookupAssoc st.ir.functions (constName pre)).isSome = true →
        processStmt oracle st n (.defConst pre raw) =
          .error ⟨some n, .duplicateDefinition⟩) ∧
    (∀ (oracle : AnimOracle) (st : PState) (n : ℕ) (name ps raw : Str),
        (trimList raw).head? = some '[' →
        (trimList raw).getLast? = some ']' →
        (lookupAssoc st.ir.functions name).isSome = true →
        processStmt oracle st n (.defVec name ps raw) =
          .error ⟨some n, .duplicateDefinition⟩) ∧
    (∀ (oracle : AnimOracle) (st : PState) (n : ℕ) (name ps raw : Str),
        (trimList raw).take 2 = "[[".data →
        (trimList raw).reverse.take 2 = "]]".data →
        (lookupAssoc st.ir.functions name).isSome = true →
        processStmt oracle st n (.defTensor name ps raw) =
          .error ⟨some n, .duplicateDefinition⟩) ∧
    (∀ (oracle : AnimOracle) (st : PState) (n : ℕ) (name ps raw : Str),
        (trimList raw).isEmpty = false →
        processStmt oracle st n (.defFn name ps raw) =
          .ok { st with
            ir := { st.ir with
              functions :=
                setAssoc st.ir.functions name
                  ⟨splitParams ps, trimList raw⟩ } }) := by
  refine ⟨?_, ?_, ?_, ?_⟩
  · intro oracle st n pre raw h1 h2 h3
    simp [processStmt, h1, h2, h3]
  · intro oracle st n name ps raw hh hl h3
    simp [processStmt, hh, hl, h3]
  · intro oracle st n name ps raw ht hl h3
    simp [processStmt, ht, hl, h3]
  · intro oracle st n name ps raw h2
    simp [processStmt, h2]

/-- A state in which the constant FNA is already defined. -/
def stWithFNA : PState :=
  { initState with ir := { initIR with
      functions := [("FNA".data, ⟨[], "1".data⟩)] } }

theorem duplicate_definition_policy_witness :
    processStmt (fun _ _ => none) stWithFNA 2
      (.defConst (" FNA ".data) (" 7".data)) =
      .error ⟨some 2, .duplicateDefinition⟩ :=
  duplicate_definition_policy.1 (fun _ _ => none) stWithFNA 2
    (" FNA ".data) (" 7".data) (by decide) (by decide) (by decide)

/-- C5: every IR accepted by parseG3D contains a surface plot; the plot
completion step prepends the implicit flat surface with expression 0 when
only vector/tensor plots were declared, and fails (without producing an IR)
when no plots were declared at all. -/
theorem implicit_surface_plot :
    (∀ (oracle : AnimOracle) (code : Str) (ir : GraphIRS),
        parseG3D oracle code = .ok ir →
        ∃ e, PlotS.surface e ∈ ir.plots) ∧
    (∀ ir : GraphIRS, ir.plots.any PlotS.isSurface = false →
        ir.plots.any PlotS.isVecOrTensor = true →
        finalizePlots ir =
          .ok { ir with plots := .surface "0".data :: ir.plots }) ∧
    (∀ ir : GraphIRS, ir.plots.any PlotS.isSurface = false →
        ir.plots.any PlotS.isVecOrTensor = false →
        finalizePlots ir = .error ⟨none, .noPlotStatement⟩) := by
  refine ⟨?_, ?_, ?_⟩
  · intro oracle code ir h
    obtain ⟨stF, _, hf⟩ := parseG3D_ok_split oracle code ir h
    simp only [finalizePlots] at hf
    split at hf
    · rename_i hany
      injection hf with h2
      subst h2
      obtain ⟨p, hmem, hps⟩ := List.any_eq_true.mp hany
      cases p with
      | surface e => exact ⟨e, hmem⟩
      | vector v => simp [PlotS.isSurface] at hps
      | tensor t g => simp [PlotS.isSurface] at hps
    · split at hf
      · injection hf with h2
        subst h2
        exact ⟨"0".data, List.mem_cons_self _ _⟩
      · exact Except.noConfusion hf
  · intro ir h1 h2
    simp [finalizePlots, h1, h2]
  · intro ir h1 h2
    simp [finalizePlots, h1, h2]

theorem implicit_surface_plot_witness :
    finalizePlots { initIR with plots := [.vector "VEC_A".data] } =
      .ok { initIR with
        plots := [.surface "0".data, .vector "VEC_A".data] } :=
  implicit_surface_plot.2.1 { initIR with plots := [.vector "VEC_A".data] }
    (by decide) (by decide)

end Parser

/-! ## Geodesic path service (src/services/geodesic.ts)

`calculateGeodesicPath` is modelled for indexed geometry.  Points are
rational triples and `THREE.Vector3.distanceTo` (a floating-point square
root) is an abstract distance parameter `d`; theorems that need it assume
only that `d` is nonnegative.  The `PriorityQueue` keeps its element array
sorted by priority (a push followed by a stable sort of an already sorted
array is a stable insertion), `shift` is taking the head.  The two
unbounded source loops (the Dijkstra `while` and the back-pointer walk) are
given fuel together with a completion flag; theorems assume the flag, and
witnesses show it is attainable.  Incomplete trailing position/index
triples, which would make the source read `undefined`, are dropped. -/

namespace Geodesic

abbrev Point3 := ℚ × ℚ × ℚ

def origin : Point3 := ((0 : ℚ), (0 : ℚ), (0 : ℚ))

/-- The vertex array built from the flattened position attribute
(lines 44-47). -/
def buildVertices : List ℚ → List Point3
  | x :: y :: z :: rest => (x, y, z) :: buildVertices rest
  | _ => []

/-- The triangle index triples (lines 51-54). -/
def triples : List ℕ → List (ℕ × ℕ × ℕ)
  | a :: b :: c :: rest => (a, b, c) :: triples rest
  | _ => []

/-- The three directed edge pairs of one triangle (line 55). -/
def edgesOf (t : ℕ × ℕ × ℕ) : List (ℕ × ℕ) :=
  [(t.1, t.2.1), (t.2.1, t.2.2), (t.2.2, t.1)]

def allEdges (indices : List ℕ) : List (ℕ × ℕ) :=
  (triples indices).flatMap edgesOf

/-- The adjacency list of a vertex (lines 50-63): for each edge pair in
processing order, the forward and the reverse entry, both weighted by the
distance between the edge endpoints. -/
def adjList (d : Point3 → Point3 → ℚ) (vs : List Point3)
    (indices : List ℕ) (u : ℕ) : List (ℕ × ℚ) :=
  (allEdges indices).flatMap (fun e =>
    let w := d (vs.getD e.1 origin) (vs.getD e.2 origin)
    (if e.1 = u then [(e.2, w)] else []) ++
      (if e.2 = u then [(e.1, w)] else []))

def fcvAux (d : Point3 → Point3 → ℚ) (p : Point3) :
    List Point3 → ℕ → Option (ℕ × ℚ) → Option (ℕ × ℚ)
  | [], _, best => best
  | v :: rest, i, best =>
    let dv := d p v
    let best2 := match best with
      | none => some (i, dv)
      | some (j, m) => if dv < m then some (i, dv) else some (j, m)
    fcvAux d p rest (i + 1) best2

/-- `findClosestVertex` (lines 66-77): strict-minimum scan, first argmin
wins; `none` is the -1 of the empty-vertex case. -/
def findClosestVertex (d : Point3 → Point3 → ℚ) (vs : List Point3)
    (p : Point3) : Option ℕ :=
  (fcvAux d p vs 0 none).map (fun b => b.1)

/-- `PriorityQueue.enqueue` acting on the sorted element array: stable
insertion after all entries of smaller or equal priority. -/
def pqInsert (q : List (ℕ × ℚ)) (item : ℕ) (p : ℚ) : List (ℕ × ℚ) :=
  match q with
  | [] => [(item, p)]
  | e :: rest =>
    if p < e.2 then (item, p) :: e :: rest else e :: pqInsert rest item p

/-- `a < b` on distances where `none` is Infinity. -/
def qlt : Option ℚ → Option ℚ → Bool
  | none, _ => false
  | some _, none => true
  | some a, some b => decide (a < b)

/-- The mutable Dijkstra state: the `distances` and `previous` arrays and
the priority queue (lines 86-91). -/
structure DijkstraS where
  dist : ℕ → Option ℚ
  prev : ℕ → Option ℕ
  pq : List (ℕ × ℚ)

/-- The neighbor relaxation loop of lines 97-105, reading the current
distance of `u` at every iteration. -/
def relaxAll (u : ℕ) : List (ℕ × ℚ) → DijkstraS → DijkstraS
  | [], s => s
  | (x, w) :: rest, s =>
    match s.dist u with
    | none => relaxAll u rest s
    | some du =>
      if qlt (some (du + w)) (s.dist x) then
        relaxAll u rest
          ⟨fun i => if i = x then some (du + w) else s.dist i,
            fun i => if i = x then some u else s.prev i,
            pqInsert s.pq x (du + w)⟩
      else relaxAll u rest s

/-- The `while (!pq.isEmpty())` loop of lines 93-106, with fuel; the flag
records that the loop terminated (empty queue or break at the end
vertex) rather than running out of fuel. -/
def dijkstraLoop (adj : ℕ → List (ℕ × ℚ)) (endV : ℕ) :
    ℕ → DijkstraS → DijkstraS × Bool
  | 0, s => (s, s.pq.isEmpty)
  | fuel + 1, s =>
    match s.pq with
    | [] => (s, true)
    | (u, _) :: rest =>
      if u = endV then ({ s with pq := rest }, true)
      else dijkstraLoop adj endV fuel (relaxAll u (adj u) { s with pq := rest })

/-- The back-pointer walk of lines 109-114, with fuel; the flag records
that a `null` back-pointer was reached. -/
def reconstruct (prev : ℕ → Option ℕ) : ℕ → ℕ → List ℕ × Bool
  | 0, cur => ([cur], false)
  | fuel + 1, cur =>
    match prev cur with
    | none => ([cur], true)
    | some p =>
      let r := reconstruct prev fuel p
      (r.1 ++ [cur], r.2)

/-- Lines 116-123: overwrite the first and last entry with the exact query
points (for a singleton list, both writes hit the same slot); an empty
list would receive both points. -/
def jsSpliceEnds (pts : List Point3) (a b : Point3) : List Point3 :=
  match pts with
  | [] => [a, b]
  | _ => (pts.set 0 a).set (pts.length - 1) b

/-- `calculateGeodesicPath` for indexed geometry: returns
((path, distance), completed); distance is a JS number because an
unreachable end vertex makes it Infinity. -/
def calculateGeodesicPath (d : Point3 → Point3 → ℚ) (positions : List ℚ)
    (indices : List ℕ) (startPoint endPoint : Point3) (fuel rfuel : ℕ) :
    (List Point3 × JSNum) × Bool :=
  let vs := buildVertices positions
  match findClosestVertex d vs startPoint, findClosestVertex d vs endPoint with
  | some sv, some ev =>
    let adj := adjList d vs indices
    let s0 : DijkstraS :=
      ⟨fun i => if i = sv then some 0 else none, fun _ => none, [(sv, 0)]⟩
    let loopRes := dijkstraLoop adj ev fuel s0
    let recon := reconstruct loopRes.1.prev rfuel ev
    let pts := recon.1.map (fun i => vs.getD i origin)
    let path := jsSpliceEnds pts startPoint endPoint
    let dTotal : JSNum :=
      match loopRes.1.dist ev with
      | some q =>
        .num (d startPoint (vs.getD sv origin) + q +
          d endPoint (vs.getD ev origin))
      | none => .inf
    ((path, dTotal), loopRes.2 && recon.2)
  | _, _ => (([], .num 0), true)

/-- Walks from `src` in the adjacency graph, built by appending edges, with
their accumulated length. -/
inductive WalkLen (adj : ℕ → List (ℕ × ℚ)) (src : ℕ) : ℕ → ℚ → Prop where
  | nil : WalkLen adj src src 0
  | snoc {u x : ℕ} {w L : ℚ} (huw : WalkLen adj src u L)
      (hx : (x, w) ∈ adj u) : WalkLen adj src x (L + w)

/-- All edge weights are nonnegative. -/
def NonnegW (adj : ℕ → List (ℕ × ℚ)) : Prop :=
  ∀ u x w, (x, w) ∈ adj u → 0 ≤ w

theorem walkLen_nonneg {adj : ℕ → List (ℕ × ℚ)} {src v : ℕ} {L : ℚ}
    (hw : NonnegW adj) (h : WalkLen adj src v L) : 0 ≤ L := by
  induction h with
  | nil => exact le_refl 0
  | snoc huw hx ih => have := hw _ _ _ hx; linarith

theorem pqInsert_mem {q : List (ℕ × ℚ)} {e : ℕ × ℚ} (i : ℕ) (p : ℚ)
    (h : e ∈ q) : e ∈ pqInsert q i p := by
  induction q with
  | nil => cases h
  | cons a rest ih =>
    simp only [pqInsert]
    split
    · exact List.mem_cons_of_mem _ h
    · rcases List.mem_cons.mp h with rfl | hm
      · exact List.mem_cons_self _ _
      · exact List.mem_cons_of_mem _ (ih hm)

theorem pqInsert_mem_self (q : List (ℕ × ℚ)) (i : ℕ) (p : ℚ) :
    (i, p) ∈ pqInsert q i p := by
  induction q with
  | nil => exact List.mem_singleton_self _
  | cons a rest ih =>
    simp only [pqInsert]
    split
    · exact List.mem_cons_self _ _
    · exact List.mem_cons_of_mem _ ih

theorem pqInsert_mem_elim {q : List (ℕ × ℚ)} {e : ℕ × ℚ} {i : ℕ} {p : ℚ}
    (h : e ∈ pqInsert q i p) : e = (i, p) ∨ e ∈ q := by
  induction q with
  | nil => simpa [pqInsert] using h
  | cons a rest ih =>
    simp only [pqInsert] at h
    split at h
    · rcases List.mem_cons.mp h with rfl | hm
      · exact Or.inl rfl
      · exact Or.inr hm
    · rcases List.mem_cons.mp h with rfl | hm
      · exact Or.inr (List.mem_cons_self _ _)
      · rcases ih hm with he | hq
        · exact Or.inl he
        · exact Or.inr (List.mem_cons_of_mem _ hq)

theorem pqInsert_sorted {q : List (ℕ × ℚ)} (i : ℕ) (p : ℚ)
    (h : q.Pairwise (fun a b => a.2 ≤ b.2)) :
    (pqInsert q i p).Pairwise (fun a b => a.2 ≤ b.2) := by
  induction q with
  | nil => simp [pqInsert]
  | cons a rest ih =>
    rcases List.pairwise_cons.mp h with ⟨ha, hrest⟩
    simp only [pqInsert]
    split
    · rename_i hlt
      refine List.pairwise_cons.mpr ⟨?_, h⟩
      intro e he
      rcases List.mem_cons.mp he with rfl | hm
      · exact le_of_lt hlt
      · exact le_trans (le_of_lt hlt) (ha e hm)
    · rename_i hnlt
      refine List.pairwise_cons.mpr ⟨?_, ih hrest⟩
      intro e he
      rcases pqInsert_mem_elim he with rfl | hm
      · exact not_lt.mp hnlt
      · exact ha e hm

/-- The Dijkstra loop invariant, relative to a ghost set `S` of settled
vertices. -/
structure DInv (adj : ℕ → List (ℕ × ℚ)) (sv : ℕ) (S : ℕ → Prop)
    (s : DijkstraS) : Prop where
  sound : ∀ v q, s.dist v = some q → WalkLen adj sv v q
  distSv : s.dist sv = some 0
  settledOpt : ∀ v, S v →
    ∃ q, s.dist v = some q ∧ ∀ L, WalkLen adj sv v L → q ≤ L
  settledRelaxed : ∀ v, S v → ∀ x w, (x, w) ∈ adj v →
    ∃ qv qx, s.dist v = some qv ∧ s.dist x = some qx ∧ qx ≤ qv + w
  unsettledQueued : ∀ v q, ¬ S v → s.dist v = some q → (v, q) ∈ s.pq
  queueDist : ∀ e, e ∈ s.pq → ∃ q, s.dist e.1 = some q ∧ q ≤ e.2
  sorted : s.pq.Pairwise (fun a b => a.2 ≤ b.2)
  prevSound : ∀ v u, s.prev v = some u → ∃ w qu qv, (v, w) ∈ adj u ∧
    s.dist u = some qu ∧ s.dist v = some qv ∧ qu + w ≤ qv
  prevRoot : ∀ v q, s.dist v = some q → s.prev v = none → v = sv

/-- Frontier lemma: every walk target is settled, or some queue entry has
priority at most the walk length. -/
theorem frontier {adj : ℕ → List (ℕ × ℚ)} {sv : ℕ} {S : ℕ → Prop}
    {s : DijkstraS} (hw : NonnegW adj) (inv : DInv adj sv S s) :
    ∀ v L, WalkLen adj sv v L → S v ∨ ∃ e ∈ s.pq, e.2 ≤ L := by
  intro v L h
  induction h with
  | nil =>
    by_cases hS : S sv
    · exact Or.inl hS
    · exact Or.inr ⟨(sv, 0), inv.unsettledQueued sv 0 hS inv.distSv,
        le_refl 0⟩
  | @snoc u x w L huw hx ih =>
    by_cases hSx : S x
    · exact Or.inl hSx
    · by_cases hSu : S u
      · obtain ⟨qu, qx, hdu, hdx, hle⟩ := inv.settledRelaxed u hSu x w hx
        obtain ⟨qu', hdu', hopt⟩ := inv.settledOpt u hSu
        rw [hdu] at hdu'
        injection hdu' with he
        subst he
        refine Or.inr ⟨(x, qx), inv.unsettledQueued x qx hSx hdx, ?_⟩
        have := hopt L huw
        simp only
        linarith
      · rcases ih with hS | ⟨e, hmem, hle⟩
        · exact absurd hS hSu
        · exact Or.inr ⟨e, hmem, by have := hw u x w hx; linarith⟩

/-- When an unsettled vertex is dequeued, its recorded distance is optimal
among all walk lengths from the source. -/
theorem dequeue_opt {adj : ℕ → List (ℕ × ℚ)} {sv : ℕ} {S : ℕ → Prop}
    {s : DijkstraS} {u : ℕ} {p : ℚ} {rest : List (ℕ × ℚ)}
    (hw : NonnegW adj) (inv : DInv adj sv S s)
    (hpq : s.pq = (u, p) :: rest) (hSu : ¬ S u) :
    ∃ q, s.dist u = some q ∧ ∀ L, WalkLen adj sv u L → q ≤ L := by
  obtain ⟨q, hdq, hqp⟩ := inv.queueDist (u, p)
    (hpq ▸ List.mem_cons_self _ _)
  refine ⟨q, hdq, ?_⟩
  intro L hL
  rcases frontier hw inv u L hL with hS | ⟨e, hmem, hle⟩
  · exact absurd hS hSu
  · have hmin : p ≤ e.2 := by
      rw [hpq] at hmem
      rcases List.mem_cons.mp hmem with rfl | hm
      · exact le_refl _
      · have := inv.sorted
        rw [hpq] at this
        exact (List.pairwise_cons.mp this).1 e hm
    linarith

/-- The invariant in the middle of relaxing the edges of the freshly
settled vertex `u`: like `DInv` for the settled set extended with `u`,
except that the edges of `u` still listed in `es` need not be relaxed
yet. -/
structure MidInv (adj : ℕ → List (ℕ × ℚ)) (sv : ℕ) (S : ℕ → Prop) (u : ℕ)
    (es : List (ℕ × ℚ)) (s : DijkstraS) : Prop where
  sound : ∀ v q, s.dist v = some q → WalkLen adj sv v q
  distSv : s.dist sv = some 0
  settledOpt : ∀ v, (S v ∨ v = u) →
    ∃ q, s.dist v = some q ∧ ∀ L, WalkLen adj sv v L → q ≤ L
  relaxedExcept : ∀ v, (S v ∨ v = u) → ∀ x w, (x, w) ∈ adj v →
    (v = u ∧ (x, w) ∈ es) ∨
    ∃ qv qx, s.dist v = some qv ∧ s.dist x = some qx ∧ qx ≤ qv + w
  unsettledQueued : ∀ v q, ¬ (S v ∨ v = u) → s.dist v = some q →
    (v, q) ∈ s.pq
  queueDist : ∀ e, e ∈ s.pq → ∃ q, s.dist e.1 = some q ∧ q ≤ e.2
  sorted : s.pq.Pairwise (fun a b => a.2 ≤ b.2)
  prevSound : ∀ v u', s.prev v = some u' → ∃ w qu qv, (v, w) ∈ adj u' ∧
    s.dist u' = some qu ∧ s.dist v = some qv ∧ qu + w ≤ qv
  prevRoot : ∀ v q, s.dist v = some q → s.prev v = none → v = sv

theorem relaxAll_pres {adj : ℕ → List (ℕ × ℚ)} {sv : ℕ} {S : ℕ → Prop}
    {u : ℕ} (hw : NonnegW adj) :
    ∀ (es : List (ℕ × ℚ)) (s : DijkstraS), MidInv adj sv S u es s →
      (∀ e ∈ es, e ∈ adj u) → MidInv adj sv S u [] (relaxAll u es s) := by
  intro es
  induction es with
  | nil => intro s m _; exact m
  | cons ew es ih =>
    obtain ⟨x, w⟩ := ew
    intro s m hsub
    have hxadj : (x, w) ∈ adj u := hsub (x, w) (List.mem_cons_self _ _)
    have hwnn : 0 ≤ w := hw u x w hxadj
    obtain ⟨du, hdu, hoptu⟩ := m.settledOpt u (Or.inr rfl)
    have hwalkx : WalkLen adj sv x (du + w) :=
      WalkLen.snoc (m.sound u du hdu) hxadj
    have hdunn : 0 ≤ du := walkLen_nonneg hw (m.sound u du hdu)
    simp only [relaxAll, hdu]
    by_cases hlt : qlt (some (du + w)) (s.dist x) = true
    · rw [if_pos hlt]
      -- the relaxation fires: x gets distance du + w, back-pointer u,
      -- and a new queue entry
      have hxu : x ≠ u := by
        intro he
        rw [he, hdu] at hlt
        simp only [qlt, decide_eq_true_eq] at hlt
        linarith
      have hxS : ¬ (S x ∨ x = u) := by
        rintro (hSx | hxu')
        · obtain ⟨qx, hdx, hoptx⟩ := m.settledOpt x (Or.inl hSx)
          rw [hdx] at hlt
          simp only [qlt, decide_eq_true_eq] at hlt
          have := hoptx (du + w) hwalkx
          linarith
        · exact hxu hxu'
      have hsvx : sv ≠ x := by
        intro he
        rw [← he, m.distSv] at hlt
        simp only [qlt, decide_eq_true_eq] at hlt
        linarith
      have hlt' : ∀ qx, s.dist x = some qx → du + w < qx := by
        intro qx hdx
        rw [hdx] at hlt
        simpa only [qlt, decide_eq_true_eq] using hlt
      refine ih _ ?_ (fun e he => hsub e (List.mem_cons_of_mem _ he))
      constructor
      · intro v q hq
        by_cases hv : v = x
        · subst hv
          simp only [if_pos rfl] at hq
          injection hq with hq
          exact hq ▸ hwalkx
        · simp only [if_neg hv] at hq
          exact m.sound v q hq
      · simpa only [if_neg hsvx] using m.distSv
      · intro v hv
        have hvx : v ≠ x := fun he => hxS (he ▸ hv)
        obtain ⟨q, hdq, hopt⟩ := m.settledOpt v hv
        exact ⟨q, by simpa only [if_neg hvx] using hdq, hopt⟩
      · intro v hv x' w' hx'
        have hvx : v ≠ x := fun he => hxS (he ▸ hv)
        rcases m.relaxedExcept v hv x' w' hx' with ⟨hvu, hmem⟩ | hrel
        · rcases List.mem_cons.mp hmem with heq | hm
          · have hx'd : x' = x := congrArg Prod.fst heq
            have hw'd : w' = w := congrArg Prod.snd heq
            refine Or.inr ⟨du, du + w, ?_, ?_, ?_⟩
            · rw [hvu]
              simpa only [if_neg (Ne.symm hxu)] using hdu
            · rw [hx'd]
              simp
            · rw [hw'd]
          · exact Or.inl ⟨hvu, hm⟩
        · obtain ⟨qv, qx0, hdv, hdx0, hle⟩ := hrel
          refine Or.inr ?_
          by_cases hx'x : x' = x
          · subst hx'x
            have := hlt' qx0 hdx0
            exact ⟨qv, du + w, by simpa only [if_neg hvx] using hdv,
              by simp, by linarith⟩
          · exact ⟨qv, qx0, by simpa only [if_neg hvx] using hdv,
              by simpa only [if_neg hx'x] using hdx0, hle⟩
      · intro v q hnv hq
        by_cases hv : v = x
        · subst hv
          simp only [if_pos rfl] at hq
          injection hq with hq
          subst hq
          exact pqInsert_mem_self _ _ _
        · simp only [if_neg hv] at hq
          exact pqInsert_mem _ _ (m.unsettledQueued v q hnv hq)
      · intro e he
        rcases pqInsert_mem_elim he with rfl | hm
        · exact ⟨du + w, by simp, le_refl _⟩
        · obtain ⟨q, hdq, hqe⟩ := m.queueDist e hm
          by_cases hv : e.1 = x
          · rw [hv] at hdq
            have := hlt' q hdq
            exact ⟨du + w, by simp [hv], by linarith⟩
          · exact ⟨q, by simpa only [if_neg hv] using hdq, hqe⟩
      · exact pqInsert_sorted _ _ m.sorted
      · intro v u' hp
        by_cases hv : v = x
        · subst hv
          simp only [if_pos rfl] at hp
          injection hp with hp
          subst hp
          refine ⟨w, du, du + w, hxadj, ?_, ?_, le_refl _⟩
          · simpa only [if_neg (Ne.symm hxu)] using hdu
          · simp
        · simp only [if_neg hv] at hp
          obtain ⟨w', qu, qv, hadj', hdu', hdv', hle'⟩ := m.prevSound v u' hp
          by_cases hu' : u' = x
          · rw [hu'] at hdu'
            have := hlt' qu hdu'
            exact ⟨w', du + w, qv, hadj', by simp [hu'],
              by simpa only [if_neg hv] using hdv', by linarith⟩
          · exact ⟨w', qu, qv, hadj',
              by simpa only [if_neg hu'] using hdu',
              by simpa only [if_neg hv] using hdv', hle'⟩
      · intro v q hq hpn
        by_cases hv : v = x
        · subst hv
          simp at hpn
        · simp only [if_neg hv] at hq hpn
          exact m.prevRoot v q hq hpn
    · rw [if_neg hlt]
      refine ih _ ?_ (fun e he => hsub e (List.mem_cons_of_mem _ he))
      constructor
      · exact m.sound
      · exact m.distSv
      · exact m.settledOpt
      · intro v hv x' w' hx'
        rcases m.relaxedExcept v hv x' w' hx' with ⟨hvu, hmem⟩ | hrel
        · rcases List.mem_cons.mp hmem with heq | hm
          · have hx'd : x' = x := congrArg Prod.fst heq
            have hw'd : w' = w := congrArg Prod.snd heq
            cases hdx : s.dist x with
            | none => rw [hdx] at hlt; simp [qlt] at hlt
            | some qx =>
              rw [hdx] at hlt
              simp only [qlt, decide_eq_true_eq] at hlt
              refine Or.inr ⟨du, qx, ?_, ?_, ?_⟩
              · rw [hvu]; exact hdu
              · rw [hx'd]; exact hdx
              · rw [hw'd]; exact not_lt.mp hlt
          · exact Or.inl ⟨hvu, hm⟩
        · exact Or.inr hrel
      · exact m.unsettledQueued
      · exact m.queueDist
      · exact m.sorted
      · exact m.prevSound
      · exact m.prevRoot

/-- Relaxing edges that are already relaxed changes nothing (the stale
lazy-queue entries of a settled vertex). -/
theorem relaxAll_noop {u : ℕ} :
    ∀ (es : List (ℕ × ℚ)) (s : DijkstraS),
      (∀ x w, (x, w) ∈ es → ∃ qu qx, s.dist u = some qu ∧
        s.dist x = some qx ∧ qx ≤ qu + w) →
      relaxAll u es s = s := by
  intro es
  induction es with
  | nil => intro s _; rfl
  | cons ew es ih =>
    obtain ⟨x, w⟩ := ew
    intro s h
    obtain ⟨qu, qx, hdu, hdx, hle⟩ := h x w (List.mem_cons_self _ _)
    have hq : qlt (some (qu + w)) (s.dist x) = false := by
      rw [hdx]
      simp only [qlt, decide_eq_false_iff_not]
      exact not_lt.mpr hle
    simp only [relaxAll, hdu, hq, Bool.false_eq_true, if_false]
    exact ih s (fun x' w' hm => h x' w' (List.mem_cons_of_mem _ hm))

theorem midInv_dinv {adj : ℕ → List (ℕ × ℚ)} {sv : ℕ} {S : ℕ → Prop}
    {u : ℕ} {s : DijkstraS} (m : MidInv adj sv S u [] s) :
    DInv adj sv (fun v => S v ∨ v = u) s where
  sound := m.sound
  distSv := m.distSv
  settledOpt := m.settledOpt
  settledRelaxed := fun v hv x w hx => by
    rcases m.relaxedExcept v hv x w hx with ⟨_, hmem⟩ | hrel
    · cases hmem
    · exact hrel
  unsettledQueued := m.unsettledQueued
  queueDist := m.queueDist
  sorted := m.sorted
  prevSound := m.prevSound
  prevRoot := m.prevRoot

/-- Popping an unsettled head entry and marking its vertex settled
establishes the mid-relaxation invariant with all its edges pending. -/
theorem dequeue_midinv {adj : ℕ → List (ℕ × ℚ)} {sv : ℕ} {S : ℕ → Prop}
    {s : DijkstraS} {u : ℕ} {p : ℚ} {rest : List (ℕ × ℚ)}
    (hw : NonnegW adj) (inv : DInv adj sv S s)
    (hpq : s.pq = (u, p) :: rest) (hSu : ¬ S u) :
    MidInv adj sv S u (adj u) { s with pq := rest } where
  sound := inv.sound
  distSv := inv.distSv
  settledOpt := fun v hv => by
    rcases hv with hS | rfl
    · exact inv.settledOpt v hS
    · exact @dequeue_opt adj sv S s v p rest hw inv hpq hSu
  relaxedExcept := fun v hv x w hx => by
    rcases hv with hS | rfl
    · exact Or.inr (inv.settledRelaxed v hS x w hx)
    · exact Or.inl ⟨rfl, hx⟩
  unsettledQueued := fun v q hnv hq => by
    rcases not_or.mp hnv with ⟨hnS, hnu⟩
    have hmem := inv.unsettledQueued v q hnS hq
    rw [hpq] at hmem
    rcases List.mem_cons.mp hmem with heq | hm
    · exact absurd (congrArg Prod.fst heq) hnu
    · exact hm
  queueDist := fun e he =>
    inv.queueDist e (by rw [hpq]; exact List.mem_cons_of_mem _ he)
  sorted := by
    have := inv.sorted
    rw [hpq] at this
    exact (List.pairwise_cons.mp this).2
  prevSound := inv.prevSound
  prevRoot := inv.prevRoot

/-- Popping a stale entry (vertex already settled) preserves the
invariant. -/
theorem pop_dinv_settled {adj : ℕ → List (ℕ × ℚ)} {sv : ℕ} {S : ℕ → Prop}
    {s : DijkstraS} {u : ℕ} {p : ℚ} {rest : List (ℕ × ℚ)}
    (inv : DInv adj sv S s) (hpq : s.pq = (u, p) :: rest) (hSu : S u) :
    DInv adj sv S { s with pq := rest } where
  sound := inv.sound
  distSv := inv.distSv
  settledOpt := inv.settledOpt
  settledRelaxed := inv.settledRelaxed
  unsettledQueued := fun v q hnv hq => by
    have hmem := inv.unsettledQueued v q hnv hq
    rw [hpq] at hmem
    rcases List.mem_cons.mp hmem with heq | hm
    · have hvu : v = u := congrArg Prod.fst heq
      exact absurd hSu (hvu ▸ hnv)
    · exact hm
  queueDist := fun e he =>
    inv.queueDist e (by rw [hpq]; exact List.mem_cons_of_mem _ he)
  sorted := by
    have := inv.sorted
    rw [hpq] at this
    exact (List.pairwise_cons.mp this).2
  prevSound := inv.prevSound
  prevRoot := inv.prevRoot

/-- Correctness of the fueled Dijkstra loop: if it terminates normally,
the final arrays are sound, back-pointer chains are descent chains rooted
at the source, and the recorded distance of the end vertex is the minimal
walk length whenever the end vertex is reachable. -/
theorem dijkstraLoop_spec {adj : ℕ → List (ℕ × ℚ)} {sv ev : ℕ}
    (hw : NonnegW adj) :
    ∀ (fuel : ℕ) (s : DijkstraS) (S : ℕ → Prop) (sF : DijkstraS),
      DInv adj sv S s →
      dijkstraLoop adj ev fuel s = (sF, true) →
      (∀ v q, sF.dist v = some q → WalkLen adj sv v q) ∧
      (∀ v u, sF.prev v = some u → ∃ w qu qv, (v, w) ∈ adj u ∧
        sF.dist u = some qu ∧ sF.dist v = some qv ∧ qu + w ≤ qv) ∧
      (∀ v q, sF.dist v = some q → sF.prev v = none → v = sv) ∧
      sF.dist sv = some 0 ∧
      ((∃ L, WalkLen adj sv ev L) →
        ∃ q, sF.dist ev = some q ∧ ∀ L, WalkLen adj sv ev L → q ≤ L) := by
  intro fuel
  induction fuel with
  | zero =>
    intro s S sF inv h
    simp only [dijkstraLoop] at h
    have h1 : s = sF := congrArg Prod.fst h
    have h2 : s.pq.isEmpty = true := congrArg Prod.snd h
    subst h1
    refine ⟨inv.sound, inv.prevSound, inv.prevRoot, inv.distSv, ?_⟩
    rintro ⟨L, hL⟩
    rcases frontier hw inv ev L hL with hS | ⟨e, hmem, _⟩
    · exact inv.settledOpt ev hS
    · rw [List.isEmpty_iff.mp h2] at hmem
      cases hmem
  | succ fuel ih =>
    intro s S sF inv h
    simp only [dijkstraLoop] at h
    cases hpq : s.pq with
    | nil =>
      rw [hpq] at h
      have h1 : s = sF := congrArg Prod.fst h
      subst h1
      refine ⟨inv.sound, inv.prevSound, inv.prevRoot, inv.distSv, ?_⟩
      rintro ⟨L, hL⟩
      rcases frontier hw inv ev L hL with hS | ⟨e, hmem, _⟩
      · exact inv.settledOpt ev hS
      · rw [hpq] at hmem
        cases hmem
    | cons e0 rest =>
      obtain ⟨u, p⟩ := e0
      rw [hpq] at h
      dsimp only at h
      by_cases hu : u = ev
      · rw [if_pos hu] at h
        have h1 : { s with pq := rest } = sF := congrArg Prod.fst h
        subst h1
        refine ⟨inv.sound, inv.prevSound, inv.prevRoot, inv.distSv, ?_⟩
        intro _
        subst hu
        by_cases hS : S u
        · exact inv.settledOpt u hS
        · exact @dequeue_opt adj sv S s u p rest hw inv hpq hS
      · rw [if_neg hu] at h
        by_cases hS : S u
        · have hnoop : relaxAll u (adj u) { s with pq := rest } =
              { s with pq := rest } :=
            relaxAll_noop _ _ (fun x w hm => inv.settledRelaxed u hS x w hm)
          rw [hnoop] at h
          exact ih _ S sF (pop_dinv_settled inv hpq hS) h
        · exact ih _ _ sF
            (midInv_dinv (relaxAll_pres hw (adj u) _
              (dequeue_midinv hw inv hpq hS) (fun e he => he))) h

/-- The invariant holds initially, with nothing settled. -/
theorem init_dinv (adj : ℕ → List (ℕ × ℚ)) (sv : ℕ) :
    DInv adj sv (fun _ => False)
      ⟨fun i => if i = sv then some 0 else none, fun _ => none,
        [(sv, 0)]⟩ where
  sound := fun v q hq => by
    by_cases hv : v = sv
    · subst hv
      simp only [if_pos rfl] at hq
      injection hq with hq
      exact hq ▸ WalkLen.nil
    · simp only [if_neg hv] at hq
      exact Option.noConfusion hq
  distSv := by simp
  settledOpt := fun _ hS => absurd hS (fun h => h)
  settledRelaxed := fun _ hS => absurd hS (fun h => h)
  unsettledQueued := fun v q _ hq => by
    by_cases hv : v = sv
    · subst hv
      simp only [if_pos rfl] at hq
      injection hq with hq
      simp [hq]
    · simp only [if_neg hv] at hq
      exact Option.noConfusion hq
  queueDist := fun e he => by
    rcases List.mem_singleton.mp he with rfl
    exact ⟨0, by simp, le_refl 0⟩
  sorted := by simp
  prevSound := fun v u hp => by cases hp
  prevRoot := fun v q hq _ => by
    by_cases hv : v = sv
    · exact hv
    · simp only [if_neg hv] at hq
      exact Option.noConfusion hq

/-- A completed back-pointer walk from a vertex with a recorded distance
produces the index path from the source to that vertex. -/
theorem reconstruct_spec {prev : ℕ → Option ℕ} {dist : ℕ → Option ℚ}
    {sv : ℕ}
    (hchain : ∀ v u, prev v = some u → ∃ q, dist u = some q)
    (hroot : ∀ v q, dist v = some q → prev v = none → v = sv) :
    ∀ (rfuel : ℕ) (v : ℕ) (q : ℚ) (l : List ℕ),
      dist v = some q → reconstruct prev rfuel v = (l, true) →
      l.head? = some sv ∧ l.getLast? = some v := by
  intro rfuel
  induction rfuel with
  | zero =>
    intro v q l hd hr
    simp only [reconstruct] at hr
    exact absurd (congrArg Prod.snd hr) (by simp)
  | succ n ih =>
    intro v q l hd hr
    simp only [reconstruct] at hr
    cases hp : prev v with
    | none =>
      rw [hp] at hr
      have hl : [v] = l := congrArg Prod.fst hr
      have hv : v = sv := hroot v q hd hp
      rw [← hl]
      exact ⟨by simp [hv], by simp⟩
    | some u =>
      rw [hp] at hr
      dsimp only at hr
      have hl : (reconstruct prev n u).1 ++ [v] = l := congrArg Prod.fst hr
      have hf : (reconstruct prev n u).2 = true := congrArg Prod.snd hr
      obtain ⟨q', hdq'⟩ := hchain v u hp
      have heq : reconstruct prev n u = ((reconstruct prev n u).1, true) := by
        rw [← hf]
      obtain ⟨hh, _⟩ := ih u q' (reconstruct prev n u).1 hdq' heq
      rw [← hl]
      constructor
      · cases hrec : (reconstruct prev n u).1 with
        | nil => rw [hrec] at hh; cases hh
        | cons a t =>
          rw [hrec] at hh
          simp only [List.head?_cons] at hh
          simp [hh]
      · exact List.getLast?_concat _

/-- The end splice overwrites both endpoints of a path with at least two
entries. -/
theorem jsSpliceEnds_ends {pts : List Point3} (a b : Point3)
    (h2 : 2 ≤ pts.length) :
    (jsSpliceEnds pts a b).head? = some a ∧
      (jsSpliceEnds pts a b).getLast? = some b := by
  cases pts with
  | nil => simp at h2
  | cons p0 t =>
    cases t with
    | nil => simp at h2
    | cons p1 rest =>
      have hlen1 : (p0 :: p1 :: rest).length - 1 = rest.length + 1 := by
        simp
      have hsp : jsSpliceEnds (p0 :: p1 :: rest) a b =
          ((p0 :: p1 :: rest).set 0 a).set (rest.length + 1) b := by
        simp only [jsSpliceEnds, hlen1]
      rw [hsp]
      constructor
      · rw [List.head?_eq_getElem?]
        rw [List.getElem?_set_ne (by omega)]
        simp
      · rw [List.getLast?_eq_getElem?]
        simp only [List.length_set, List.set_cons_zero]
        have : (a :: p1 :: rest).length - 1 = rest.length + 1 := by simp
        rw [this]
        rw [List.getElem?_set_self (by simp)]

/-- All adjacency weights are distances, hence nonnegative for a
nonnegative distance function. -/
theorem adjList_nonneg {d : Point3 → Point3 → ℚ} {vs : List Point3}
    {indices : List ℕ} (hd : ∀ p q : Point3, 0 ≤ d p q) :
    NonnegW (adjList d vs indices) := by
  intro u x w hm
  simp only [adjList, List.mem_flatMap] at hm
  obtain ⟨e, _, hm2⟩ := hm
  rcases List.mem_append.mp hm2 with h | h <;> split at h <;>
    simp only [List.mem_singleton, List.not_mem_nil] at h
  · rw [show w = d (vs.getD e.1 origin) (vs.getD e.2 origin) from
      congrArg Prod.snd h]
    exact hd _ _
  · rw [show w = d (vs.getD e.1 origin) (vs.getD e.2 origin) from
      congrArg Prod.snd h]
    exact hd _ _

theorem head_getLast_two {l : List ℕ} {a b : ℕ} (hh : l.head? = some a)
    (hl : l.getLast? = some b) (hne : a ≠ b) : 2 ≤ l.length := by
  cases l with
  | nil => cases hh
  | cons x t =>
    cases t with
    | nil =>
      simp only [List.head?_cons] at hh
      simp only [List.getLast?_singleton] at hl
      injection hh with hh
      injection hl with hl
      exact absurd (hh ▸ hl ▸ rfl) hne
    | cons y t2 => simp

/-- C9 (amended): when the two query points snap to distinct, connected
mesh vertices and both loops run to completion, the returned path starts
at the exact start query point and ends at the exact end query point, and
the returned distance is the start snapping distance plus the minimal
vertex-to-vertex walk length plus the end snapping distance; when both
points snap to the same vertex, the returned path collapses to the single
point [endPoint] (so its first point is not the start query point). -/
theorem geodesic_path_spec :
    (∀ (d : Point3 → Point3 → ℚ) (positions : List ℚ) (indices : List ℕ)
        (sp ep : Point3) (fuel rfuel : ℕ) (sv ev : ℕ),
        (∀ p q : Point3, 0 ≤ d p q) →
        findClosestVertex d (buildVertices positions) sp = some sv →
        findClosestVertex d (buildVertices positions) ep = some ev →
        sv ≠ ev →
        (∃ L, WalkLen (adjList d (buildVertices positions) indices) sv ev L) →
        (calculateGeodesicPath d positions indices sp ep fuel rfuel).2 = true →
        ∃ δ,
          WalkLen (adjList d (buildVertices positions) indices) sv ev δ ∧
          (∀ L, WalkLen (adjList d (buildVertices positions) indices) sv ev L →
            δ ≤ L) ∧
          (calculateGeodesicPath d positions indices sp ep fuel
            rfuel).1.1.head? = some sp ∧
          (calculateGeodesicPath d positions indices sp ep fuel
            rfuel).1.1.getLast? = some ep ∧
          (calculateGeodesicPath d positions indices sp ep fuel rfuel).1.2 =
            .num (d sp ((buildVertices positions).getD sv origin) + δ +
              d ep ((buildVertices positions).getD ev origin))) ∧
    (∀ (d : Point3 → Point3 → ℚ) (positions : List ℚ) (indices : List ℕ)
        (sp ep : Point3) (fuel rfuel : ℕ) (sv : ℕ),
        findClosestVertex d (buildVertices positions) sp = some sv →
        findClosestVertex d (buildVertices positions) ep = some sv →
        1 ≤ fuel → 1 ≤ rfuel →
        (calculateGeodesicPath d positions indices sp ep fuel rfuel).1.1 =
          [ep] ∧
        (calculateGeodesicPath d positions indices sp ep fuel rfuel).2 =
          true) := by
  constructor
  · intro d positions indices sp ep fuel rfuel sv ev hd hsv hev hne hreach
      hdone
    have hw : NonnegW (adjList d (buildVertices positions) indices) :=
      adjList_nonneg hd
    simp only [calculateGeodesicPath, hsv, hev] at hdone ⊢
    rw [Bool.and_eq_true] at hdone
    obtain ⟨hf1, hf2⟩ := hdone
    have hloopT : dijkstraLoop (adjList d (buildVertices positions) indices)
        ev fuel
        ⟨fun i => if i = sv then some 0 else none, fun _ => none,
          [(sv, 0)]⟩ =
        ((dijkstraLoop (adjList d (buildVertices positions) indices) ev fuel
          ⟨fun i => if i = sv then some 0 else none, fun _ => none,
            [(sv, 0)]⟩).1, true) := by
      rw [← hf1]
    obtain ⟨hsound, hprev, hroot, _, hopt⟩ :=
      dijkstraLoop_spec hw fuel _ (fun _ => False) _
        (init_dinv (adjList d (buildVertices positions) indices) sv) hloopT
    obtain ⟨δ, hdev, hoptev⟩ := hopt hreach
    refine ⟨δ, hsound ev δ hdev, hoptev, ?_⟩
    have hreconT : reconstruct (dijkstraLoop
        (adjList d (buildVertices positions) indices) ev fuel
        ⟨fun i => if i = sv then some 0 else none, fun _ => none,
          [(sv, 0)]⟩).1.prev rfuel ev =
        ((reconstruct (dijkstraLoop
          (adjList d (buildVertices positions) indices) ev fuel
          ⟨fun i => if i = sv then some 0 else none, fun _ => none,
            [(sv, 0)]⟩).1.prev rfuel ev).1, true) := by
      rw [← hf2]
    have hchain : ∀ v u, (dijkstraLoop
        (adjList d (buildVertices positions) indices) ev fuel
        ⟨fun i => if i = sv then some 0 else none, fun _ => none,
          [(sv, 0)]⟩).1.prev v = some u →
        ∃ q, (dijkstraLoop (adjList d (buildVertices positions) indices) ev
          fuel ⟨fun i => if i = sv then some 0 else none, fun _ => none,
            [(sv, 0)]⟩).1.dist u = some q := by
      intro v u hp
      obtain ⟨w, qu, qv, _, hdu, _, _⟩ := hprev v u hp
      exact ⟨qu, hdu⟩
    obtain ⟨hh, hlast⟩ := reconstruct_spec hchain hroot rfuel ev δ _ hdev
      hreconT
    have hlen2 := head_getLast_two hh hlast hne
    have hlenm : 2 ≤ ((reconstruct (dijkstraLoop
        (adjList d (buildVertices positions) indices) ev fuel
        ⟨fun i => if i = sv then some 0 else none, fun _ => none,
          [(sv, 0)]⟩).1.prev rfuel ev).1.map
        (fun i => (buildVertices positions).getD i origin)).length := by
      rw [List.length_map]
      exact hlen2
    obtain ⟨hsp, hep⟩ := jsSpliceEnds_ends sp ep hlenm
    refine ⟨hsp, hep, ?_⟩
    rw [hdev]
  · intro d positions indices sp ep fuel rfuel sv hsv hev hf hr
    obtain ⟨f, rfl⟩ : ∃ f, fuel = f + 1 := ⟨fuel - 1, by omega⟩
    obtain ⟨r, rfl⟩ : ∃ r, rfuel = r + 1 := ⟨rfuel - 1, by omega⟩
    simp only [calculateGeodesicPath, hsv, hev, dijkstraLoop, reconstruct]
    constructor
    · simp [jsSpliceEnds]
    · simp

/-- A degenerate collinear mesh: vertices (0,0,0), (30,0,0), (80,0,0). -/
def cpos : List ℚ := [0, 0, 0, 30, 0, 0, 80, 0, 0]

def cidx : List ℕ := [0, 1, 2]

/-- The Euclidean distances relevant to the collinear counterexample mesh
and the two query points (1,0,0) and (2,0,0), all exact rationals. -/
def dLine (p q : Point3) : ℚ :=
  if p = ((1 : ℚ), (0 : ℚ), (0 : ℚ)) then
    (if q = ((0 : ℚ), (0 : ℚ), (0 : ℚ)) then 1
      else if q = ((30 : ℚ), (0 : ℚ), (0 : ℚ)) then 29 else 79)
  else
    (if q = ((0 : ℚ), (0 : ℚ), (0 : ℚ)) then 2
      else if q = ((30 : ℚ), (0 : ℚ), (0 : ℚ)) then 28 else 78)

/-- Both query points snap to vertex 0; the returned path is the single
point [endPoint], whose first entry is not the start query point. -/
theorem geodesic_same_vertex_counterexample :
    (calculateGeodesicPath dLine cpos cidx ((1 : ℚ), (0 : ℚ), (0 : ℚ))
        ((2 : ℚ), (0 : ℚ), (0 : ℚ)) 9 9).1.1 =
      [((2 : ℚ), (0 : ℚ), (0 : ℚ))] ∧
    (calculateGeodesicPath dLine cpos cidx ((1 : ℚ), (0 : ℚ), (0 : ℚ))
        ((2 : ℚ), (0 : ℚ), (0 : ℚ)) 9 9).2 = true ∧
    (((2 : ℚ), (0 : ℚ), (0 : ℚ)) : Point3) ≠ ((1 : ℚ), (0 : ℚ), (0 : ℚ)) :=
  ⟨rfl, rfl, by decide⟩

/-- The 3-4-5 right-triangle mesh: vertices (0,0,0), (3,0,0), (0,4,0). -/
def wpos : List ℚ := [0, 0, 0, 3, 0, 0, 0, 4, 0]

def widx : List ℕ := [0, 1, 2]

def pA : Point3 := ((0 : ℚ), (0 : ℚ), (0 : ℚ))

def pB : Point3 := ((3 : ℚ), (0 : ℚ), (0 : ℚ))

def pC : Point3 := ((0 : ℚ), (4 : ℚ), (0 : ℚ))

/-- The exact Euclidean distances of the 3-4-5 mesh. -/
def dMesh (p q : Point3) : ℚ :=
  if p = q then 0
  else if (p = pA ∧ q = pB) ∨ (p = pB ∧ q = pA) then 3
  else if (p = pA ∧ q = pC) ∨ (p = pC ∧ q = pA) then 4
  else 5

theorem geodesic_path_spec_witness :
    (calculateGeodesicPath dMesh wpos widx pA pB 2 2).2 = true ∧
    ∃ δ,
      WalkLen (adjList dMesh (buildVertices wpos) widx) 0 1 δ ∧
      (∀ L, WalkLen (adjList dMesh (buildVertices wpos) widx) 0 1 L →
        δ ≤ L) ∧
      (calculateGeodesicPath dMesh wpos widx pA pB 2 2).1.1.head? =
        some pA ∧
      (calculateGeodesicPath dMesh wpos widx pA pB 2 2).1.1.getLast? =
        some pB ∧
      (calculateGeodesicPath dMesh wpos widx pA pB 2 2).1.2 =
        .num (dMesh pA ((buildVertices wpos).getD 0 origin) + δ +
          dMesh pB ((buildVertices wpos).getD 1 origin)) := by
  have hnn : ∀ p q : Point3, 0 ≤ dMesh p q := by
    intro p q
    unfold dMesh
    split_ifs <;> norm_num
  have hsv : findClosestVertex dMesh (buildVertices wpos) pA = some 0 := by
    decide
  have hev : findClosestVertex dMesh (buildVertices wpos) pB = some 1 := by
    decide
  have hreach : ∃ L,
      WalkLen (adjList dMesh (buildVertices wpos) widx) 0 1 L :=
    ⟨0 + 3, WalkLen.snoc WalkLen.nil (by decide)⟩
  have hdone : (calculateGeodesicPath dMesh wpos widx pA pB 2 2).2 =
      true := by
    simp only [calculateGeodesicPath, hsv, hev]
    norm_num [dMesh, pA, pB, pC, buildVertices, wpos, widx, adjList,
      allEdges, triples, edgesOf, dijkstraLoop, relaxAll, qlt, pqInsert,
      reconstruct, jsSpliceEnds, origin, Prod.mk.injEq,
      -Prod.mk_zero_zero]
  exact ⟨hdone, geodesic_path_spec.1 dMesh wpos widx pA pB 2 2 0 1 hnn
    hsv hev (by decide) hreach hdone⟩

end Geodesic

end GraphForge
